import Mathlib

/-!
# windows-libraries: libcommon string and error helpers

A shallow embedding of `src/libcommon/string.h`, `src/libcommon/string.cpp` and
`src/libcommon/error.cpp`.

* `std::wstring` and `std::string` are lists of characters.
* `std::vector<T>` is `List T`.
* A C++ function that can throw returns `Except`.
* `std::unordered_map` is an association list with unique keys; iteration order of the
  real container is unspecified, so statements about it are phrased through membership
  and key lookup.
-/

namespace common

/-- A `std::wstring`. -/
abbrev WString := List Char

/-- A `std::string`. -/
abbrev NString := List Char

namespace string

/-! ## Join (string.cpp 50-84) -/

/-- The default value of the `delimiter` parameter of `Join`, the literal `L", "`
(string.h 15). -/
def defaultDelimiter : WString := [',', ' ']

/-- Body of the second `for_each` of `Join` (string.cpp 71-79): the delimiter is appended
when `joined` is not empty, then the part is appended. -/
def joinStep (delimiter : WString) (joined : WString) (part : WString) : WString :=
  (if joined.isEmpty then joined else joined ++ delimiter) ++ part

/-- The function `Join` (string.cpp 50-84). The `reserve` call only affects capacity and is
left out. -/
def Join (parts : List WString) (delimiter : WString) : WString :=
  match parts with
  | [] => []
  | [part] => part
  | _ => parts.foldl (joinStep delimiter) []

/-- The spec's words for `Join`: the parts in order with the delimiter between each pair of
adjacent parts. -/
def JoinSpec (delimiter : WString) : List WString → WString
  | [] => []
  | [part] => part
  | part :: next :: rest => part ++ delimiter ++ JoinSpec delimiter (next :: rest)

/-! ## FormatFlags (string.h 17-38) -/

/-- The literal `L"[...]"` pushed for unrepresented bits (string.h 34). -/
def unrepresentedMarker : WString := ['[', '.', '.', '.', ']']

/-- The operator `~` on an unsigned integer type `T` of `w` bits. -/
def bitNot (w : Nat) (x : Nat) : Nat := 2 ^ w - 1 - x % 2 ^ w

/-- Body of the `for_each` of `FormatFlags` (string.h 23-30) on the pair
`(present, remaining)`: the test reads the parameter `flags`; on a match the label is
pushed and the mask is cleared from `remaining`. -/
def flagsStep (w : Nat) (flags : Nat) (st : List WString × Nat)
    (definition : Nat × WString) : List WString × Nat :=
  if flags &&& definition.1 ≠ 0 then
    (st.1 ++ [definition.2], st.2 &&& bitNot w definition.1)
  else
    st

/-- The `for_each` of `FormatFlags` run over a list of definitions, from
`present = []` and `remaining = flags` (string.h 20-30). -/
def flagsLoop (w : Nat) (flags : Nat) (definitions : List (Nat × WString)) :
    List WString × Nat :=
  definitions.foldl (flagsStep w flags) ([], flags)

/-- The vector `present` that `FormatFlags` hands to `Join` (string.h 20-35). -/
def flagsPresent (w : Nat) (definitions : List (Nat × WString)) (flags : Nat) :
    List WString :=
  let st := flagsLoop w flags definitions
  if st.2 ≠ 0 then st.1 ++ [unrepresentedMarker] else st.1

/-- The template `FormatFlags<T>` for an unsigned `T` of `w` bits (string.h 17-38). -/
def FormatFlags (w : Nat) (definitions : List (Nat × WString)) (flags : Nat) : WString :=
  Join (flagsPresent w definitions flags) defaultDelimiter

/-- The spec's words for a matching definition: its mask shares a set bit with `flags`. -/
def matchesFlags (flags : Nat) (definition : Nat × WString) : Bool :=
  decide (flags &&& definition.1 ≠ 0)

/-- The spec's words for the leftover: the bits of `flags` that remain after the masks of
all matching definitions are cleared, one after the other, where clearing a mask removes
from the value the bits that it shares with the mask. -/
def leftoverSpec (definitions : List (Nat × WString)) (flags : Nat) : Nat :=
  ((definitions.filter (matchesFlags flags)).map (fun d => d.1)).foldl
    (fun remaining mask => remaining ^^^ (remaining &&& mask)) flags

/-- The reading of the data-model sentence on `FormatFlags`: wherever a definition is
examined and its label is pushed, its mask meets the bits left in the working copy at
that moment. -/
def EmitsOnlyOnRemaining (w : Nat) (definitions : List (Nat × WString)) (flags : Nat) :
    Prop :=
  ∀ (before : List (Nat × WString)) (d : Nat × WString) (after : List (Nat × WString)),
    definitions = before ++ d :: after →
    (flagsStep w flags (flagsLoop w flags before) d).1
        = (flagsLoop w flags before).1 ++ [d.2] →
    d.1 &&& (flagsLoop w flags before).2 ≠ 0

/-! ## Summary (string.cpp 228-247) -/

/-- The text of the `std::runtime_error` thrown by `Summary` (string.cpp 240). -/
def summaryTooShort : NString := "Requested summary is too short".toList

/-- The function `Summary` (string.cpp 228-247); a thrown `std::runtime_error` is the
`error` case, carrying its text. -/
def Summary (str : WString) (max : Nat) : Except NString WString :=
  if str.length ≤ max then
    .ok str
  else if max < 3 then
    .error summaryTooShort
  else
    .ok (str.take (max - 3) ++ ['.', '.', '.'])

/-! ## SplitKeyValuePairs (string.cpp 249-272, string.h 75) -/

/-- The type `KeyValuePairs`, a `std::unordered_map` from key to value (string.h 75): the
entries, each key at most once. -/
abbrev KeyValuePairs := List (WString × WString)

/-- The member `unordered_map::insert`: no effect when the key is already present,
otherwise the entry is added. -/
def mapInsert (result : KeyValuePairs) (entry : WString × WString) : KeyValuePairs :=
  if result.any (fun e => e.1 == entry.1) then result else result ++ [entry]

/-- The member `basic_string::find(ch)`: index of the first occurrence, `none` for
`npos`. -/
def find (str : WString) (ch : Char) : Option Nat :=
  let index := str.indexOf ch
  if index < str.length then some index else none

/-- Body of the loop of `SplitKeyValuePairs` (string.cpp 255-268). -/
def splitStep (result : KeyValuePairs) (pair : WString) : KeyValuePairs :=
  match find pair '=' with
  | none => mapInsert result (pair, [])
  | some index => mapInsert result (pair.take index, pair.drop (index + 1))

/-- The function `SplitKeyValuePairs` (string.cpp 249-272). -/
def SplitKeyValuePairs (serializedPairs : List WString) : KeyValuePairs :=
  serializedPairs.foldl splitStep []

/-- The entry that the loop body of `SplitKeyValuePairs` builds from one string
(the arguments of `std::make_pair`, string.cpp 260 and 264-267). -/
def splitPair (pair : WString) : WString × WString :=
  match find pair '=' with
  | none => (pair, [])
  | some index => (pair.take index, pair.drop (index + 1))

/-! ## TrimRight (string.h 82-117, string.cpp 274-275) -/

/-- The constants `TrimChars` and `WideTrimChars` (string.cpp 274-275). -/
def TrimChars : List Char := ['\r', '\n', '\t', ' ']

/-- The member `basic_string::find_last_not_of(chars)`: index of the last character that
is not in `chars`, `none` for `npos`. -/
def find_last_not_of : List Char → List Char → Option Nat
  | [], _ => none
  | c :: rest, chars =>
    match find_last_not_of rest chars with
    | some index => some (index + 1)
    | none => if chars.contains c then none else some 0

/-- The template `TrimRight` (string.h 100-117). -/
def TrimRight (str : List Char) : List Char :=
  match find_last_not_of str TrimChars with
  | none => []
  | some index => str.take (index + 1)

end string

namespace error

/-! ## Exceptions and the log sink -/

/-- An exception object derived from `std::exception`, with what `std::rethrow_if_nested`
finds in it:

* `plain`: the object is not derived from `std::nested_exception`;
* `nestedStd`: it is, and its nested exception is itself derived from `std::exception`;
* `nestedOther`: it is, and its nested exception is of another type;
* `nestedNull`: it is, and its nested pointer is null, as for an object built by
  `std::throw_with_nested` or by the constructor of `std::nested_exception` while no
  exception is being handled. -/
inductive StdException where
  | plain (what : NString)
  | nestedStd (what : NString) (inner : StdException)
  | nestedOther (what : NString)
  | nestedNull (what : NString)
  deriving DecidableEq

/-- Any exception object: one derived from `std::exception`, or one of another type. -/
inductive Thrown where
  | std (e : StdException)
  | other
  deriving DecidableEq

/-- The member `what()`. -/
def StdException.what : StdException → NString
  | .plain what => what
  | .nestedStd what _ => what
  | .nestedOther what => what
  | .nestedNull what => what

/-- The nested exception (the cause) that an exception carries, if any. -/
def StdException.cause : StdException → Option Thrown
  | .plain _ => none
  | .nestedStd _ inner => some (.std inner)
  | .nestedOther _ => some .other
  | .nestedNull _ => none

/-- The library call `std::throw_with_nested(std::runtime_error(text))` executed while
`nested` is the current exception: the object that is thrown. -/
def throw_with_nested (text : NString) (nested : Thrown) : StdException :=
  match nested with
  | .std e => .nestedStd text e
  | .other => .nestedOther text

/-! ## FormatWindowsError, FormatWindowsErrorPlain (error.cpp 11-58) -/

/-- The stream manipulators `std::setw(width) << std::setfill(fill)` applied to one
output: padding on the left up to `width` characters. -/
def setw (width : Nat) (fill : Char) (text : List Char) : List Char :=
  List.replicate (width - text.length) fill ++ text

/-- The stream output of an unsigned value under `std::hex`: lowercase digits, no leading
zeros. -/
def hexText (value : Nat) : List Char := Nat.toDigits 16 value

/-- The function `FormatWindowsError` (error.cpp 11-31). The OS call `FormatMessageW` is a
parameter: `none` is the status 0, `some buffer` the text it stores. -/
def FormatWindowsError (FormatMessageW : Nat → Option WString) (errorCode : Nat) :
    WString :=
  match FormatMessageW errorCode with
  | none => "System error 0x".toList ++ setw 8 '0' (hexText errorCode)
  | some buffer => common.string.TrimRight buffer

/-- The function `FormatWindowsErrorPlain` (error.cpp 33-58). The OS call `FormatMessageA`
is a parameter: `none` is the status 0, `some buffer` the text it stores. -/
def FormatWindowsErrorPlain (FormatMessageA : Nat → Option NString) (errorCode : Nat) :
    NString :=
  match FormatMessageA errorCode with
  | none => "System error 0x".toList ++ setw 8 '0' (hexText errorCode)
  | some buffer => common.string.TrimRight buffer

/-! ## Throw (error.cpp 60-72) -/

/-- The function `Throw` (error.cpp 60-72). `current_exception` is the value of
`std::current_exception()` at the call; the thrown object is the `error` case and a
normal return would be `ok ()`. -/
def Throw (FormatMessageA : Nat → Option NString) (current_exception : Option Thrown)
    (operation : NString) (errorCode : Nat) : Except StdException Unit :=
  let text := operation ++ [':', ' '] ++ FormatWindowsErrorPlain FormatMessageA errorCode
  match current_exception with
  | some nested => .error (throw_with_nested text nested)
  | none => .error (.plain text)

/-! ## UnwindException (error.cpp 74-89) -/

/-- How a run of `UnwindException` ends: a normal return, with the final state of the sink;
an exception that leaves the function; or a call of `std::terminate`, which ends the
process. -/
inductive Outcome (σ ε : Type) where
  | returned (logSink : σ)
  | thrown (exception : ε)
  | terminated

/-- One run of `UnwindException`: the texts passed to `logSink->error`, in call order, and
how the run ends. -/
structure Unwound (σ ε : Type) where
  calls : List NString
  result : Outcome σ ε

/-- The function `UnwindException` (error.cpp 74-89). The sink is a parameter: its state
`σ` and its member `error`, which returns the next state or throws `ε`.

* Line 76 stands before the `try`, so an exception of the sink leaves the function.
* `std::rethrow_if_nested` does nothing on `plain`.
* On `nestedStd` the first handler runs the recursive call; an exception thrown inside a
  handler is not caught by the other handlers of the same `try`, so it leaves the function.
* On `nestedOther` the handler `catch (...)` is empty.
* On `nestedNull`, `std::rethrow_if_nested` calls `rethrow_nested()`, which calls
  `std::terminate` on a null nested pointer; no handler stops that. -/
def UnwindException {σ ε : Type} (sinkError : σ → NString → Except ε σ) :
    StdException → σ → Unwound σ ε
  | .plain what, logSink =>
    match sinkError logSink what with
    | .error thrown => ⟨[what], .thrown thrown⟩
    | .ok logSink1 => ⟨[what], .returned logSink1⟩
  | .nestedStd what innerErr, logSink =>
    match sinkError logSink what with
    | .error thrown => ⟨[what], .thrown thrown⟩
    | .ok logSink1 =>
      let inner := UnwindException sinkError innerErr logSink1
      ⟨what :: inner.calls, inner.result⟩
  | .nestedOther what, logSink =>
    match sinkError logSink what with
    | .error thrown => ⟨[what], .thrown thrown⟩
    | .ok logSink1 => ⟨[what], .returned logSink1⟩
  | .nestedNull what, logSink =>
    match sinkError logSink what with
    | .error thrown => ⟨[what], .thrown thrown⟩
    | .ok _ => ⟨[what], .terminated⟩

/-- The messages of the elements of a cause chain that are derived from
`std::exception`, from the outermost error to the innermost cause. -/
def StdException.messages : StdException → List NString
  | .plain what => [what]
  | .nestedStd what inner => what :: inner.messages
  | .nestedOther what => [what]
  | .nestedNull what => [what]

/-- The number of elements of a cause chain. -/
def StdException.chainLength : StdException → Nat
  | .plain _ => 1
  | .nestedStd _ inner => inner.chainLength + 1
  | .nestedOther _ => 2
  | .nestedNull _ => 1

/-- Every element of the cause chain is derived from `std::exception`. -/
def StdException.allStd : StdException → Bool
  | .plain _ => true
  | .nestedStd _ inner => inner.allStd
  | .nestedOther _ => false
  | .nestedNull _ => true

/-- The innermost element of the chain that is derived from `std::exception` is derived
from `std::nested_exception` and has a null nested pointer. -/
def StdException.endsInNull : StdException → Bool
  | .plain _ => false
  | .nestedStd _ inner => inner.endsInNull
  | .nestedOther _ => false
  | .nestedNull _ => true

/-- The end of a run that first logs messages, with outcome `logged`, and then, if no call
of the sink has thrown, is ended by `std::terminate` when `endsInNull` holds and by a
normal return otherwise. -/
def outcomeOfLogging {σ ε : Type} (logged : Except ε σ) (endsInNull : Bool) :
    Outcome σ ε :=
  match logged with
  | .error thrown => .thrown thrown
  | .ok logSink => if endsInNull then .terminated else .returned logSink

/-- A sink without state whose `error(text)` throws on the text `"inner"` and returns
normally on every other text. -/
def sinkFailingOnInner (logSink : Unit) (text : NString) : Except Unit Unit :=
  if text = ['i', 'n', 'n', 'e', 'r'] then .error () else .ok logSink

/-- A sink that never throws: its state is the list of the texts it has received. -/
def recordingSink (logSink : List NString) (text : NString) : Except Unit (List NString) :=
  .ok (logSink ++ [text])

end error

namespace string

/-! ## ToAnsi (string.cpp 209-221) -/

/-- The lambda of `ToAnsi` (string.cpp 215-218): `'?'` for a code above 255, otherwise the
conversion `static_cast<char>(c)`, which keeps the low eight bits. -/
def toAnsiChar (c : Char) : Char :=
  if c.toNat > 255 then '?' else Char.ofNat (c.toNat % 256)

/-- The function `ToAnsi` (string.cpp 209-221): `std::transform` with a back inserter. -/
def ToAnsi (str : WString) : NString :=
  str.map toAnsiChar

end string

/-! ## Numerals written by stream output -/

/-- The digit characters that a stream writes, in order of value (lowercase, as no
`std::uppercase` is set anywhere). -/
def digitChars : List Char := "0123456789abcdef".toList

/-- The value of a digit character; 16 for a character that is not a digit. -/
def digitValue (c : Char) : Nat := digitChars.indexOf c

/-- The number that a text denotes in a base, most significant digit first. -/
def numeralValue (base : Nat) (text : List Char) : Nat :=
  text.foldl (fun acc c => acc * base + digitValue c) 0

/-- The text is the rendering of `n` in base `base` without leading zeros: only digits of
that base, not empty, no leading `'0'` unless it is `"0"`, and of value `n`. -/
def IsNumeralOf (base : Nat) (text : List Char) (n : Nat) : Prop :=
  (∀ c ∈ text, digitValue c < base) ∧ text ≠ []
    ∧ (text.head? = some '0' → text = ['0']) ∧ numeralValue base text = n

namespace string

/-- The stream output of an unsigned value under the default `std::dec`: decimal digits,
no leading zeros. -/
def decimalText (value : Nat) : List Char := Nat.toDigits 10 value

end string

namespace string

/-! ## FormatIpv4 (string.cpp 86-105) -/

/-- The function `FormatIpv4(uint32_t)` (string.cpp 86-96): four unsigned values written
in decimal to a `std::wstringstream`, with `L'.'` between them. -/
def FormatIpv4 (ip : Nat) : WString :=
  decimalText ((ip &&& 0xFF000000) >>> 24) ++ ['.']
    ++ decimalText ((ip &&& 0x00FF0000) >>> 16) ++ ['.']
    ++ decimalText ((ip &&& 0x0000FF00) >>> 8) ++ ['.']
    ++ decimalText (ip &&& 0x000000FF)

/-- The function `FormatIpv4(uint32_t, uint8_t)` (string.cpp 98-105). The stream is a
`std::wstringstream` and the argument an `unsigned char`: the character inserters of a
wide stream take `wchar_t` or `char` only, so overload resolution selects the integer
inserter `operator<<(int)` by integral promotion, and the value is written as a decimal
number. -/
def FormatIpv4Routing (ip : Nat) (routingPrefix : Nat) : WString :=
  FormatIpv4 ip ++ ['/'] ++ decimalText routingPrefix

/-- The spec's words for the parts of an address: octet `k` is the bits `8k+7 .. 8k`. -/
def octet (ip : Nat) (k : Nat) : Nat := ip / 2 ^ (8 * k) % 256

end string

namespace memory

/-- Modelled from the spec: `common::memory::ByteSwap` is declared in `memory.h`, which is
not among the sources. The spec says the 16-bit words are "swapped from native
little-endian storage": the two bytes of the word change places. -/
def ByteSwap (value : Nat) : Nat := value % 256 * 256 + value / 256 % 256

end memory

namespace string

/-! ## FormatIpv6 (string.cpp 107-131) -/

/-- The read `*(wptr + i)` in `FormatIpv6` (string.cpp 115, 125-128): the 16-bit word at
the bytes `2i` and `2i+1` of `ip`, as a little-endian system reads it. -/
def readWord (ip : List Nat) (i : Nat) : Nat :=
  ip.getD (2 * i) 0 % 256 + 256 * (ip.getD (2 * i + 1) 0 % 256)

/-- The function `FormatIpv6(const uint8_t[16])` (string.cpp 107-131): eight swapped words
written under `std::hex` to a `std::wstringstream`, with `L':'` between them. -/
def FormatIpv6 (ip : List Nat) : WString :=
  error.hexText (memory.ByteSwap (readWord ip 0)) ++ [':']
    ++ error.hexText (memory.ByteSwap (readWord ip 1)) ++ [':']
    ++ error.hexText (memory.ByteSwap (readWord ip 2)) ++ [':']
    ++ error.hexText (memory.ByteSwap (readWord ip 3)) ++ [':']
    ++ error.hexText (memory.ByteSwap (readWord ip 4)) ++ [':']
    ++ error.hexText (memory.ByteSwap (readWord ip 5)) ++ [':']
    ++ error.hexText (memory.ByteSwap (readWord ip 6)) ++ [':']
    ++ error.hexText (memory.ByteSwap (readWord ip 7))

/-- The spec's words for the groups of an address: word `i` is `b[2i] * 256 + b[2i+1]`. -/
def bigEndianWord (ip : List Nat) (i : Nat) : Nat :=
  ip.getD (2 * i) 0 * 256 + ip.getD (2 * i + 1) 0

end string

namespace string

/-- The spec's words for the union of the masks: the bitwise OR of the masks of all
definitions of the list. -/
def maskUnion (definitions : List (Nat × WString)) : Nat :=
  definitions.foldl (fun union definition => union ||| definition.1) 0

end string

namespace string

/-! ## Tokenize (string.cpp 187-207) -/

/-- The member `c_str()` read as a C string: the characters before the first NUL. This is
what `wcscpy_s` copies into the buffer and what `wcstok_s` reads as the delimiters. -/
def c_str (str : List Char) : List Char := str.takeWhile (fun c => c != '\x00')

/-- The CRT function `wcstok_s` on the part of the buffer that `context` points to: the
leading delimiters are skipped; if nothing is left the result is null (`none`); otherwise
the token runs up to the next delimiter, which is overwritten with NUL, and the context
moves behind it. The result is the token and the new context. -/
def wcstok_s (context : List Char) (delimiters : List Char) :
    Option (List Char × List Char) :=
  match context.dropWhile (fun c => delimiters.contains c) with
  | [] => none
  | c :: rest =>
    some ((c :: rest).takeWhile (fun x => !delimiters.contains x),
      ((c :: rest).dropWhile (fun x => !delimiters.contains x)).tail)

/-- The `while` loop of `Tokenize` (string.cpp 200-204), where `token` is the result of
the last call of `wcstok_s`; each test of the loop condition takes one unit of fuel. -/
def tokenizeLoop (delimiters : List Char) :
    Nat → Option (List Char × List Char) → List WString → List WString
  | 0, _, tokens => tokens
  | _ + 1, none, tokens => tokens
  | fuel + 1, some (token, context), tokens =>
    tokenizeLoop delimiters fuel (wcstok_s context delimiters) (tokens ++ [token])

/-- The function `Tokenize` (string.cpp 187-207). Every call of `wcstok_s` that returns a
token consumes at least one character of the buffer, so the loop condition is tested at
most `length + 1` times. -/
def Tokenize (str : WString) (delimiters : WString) : List WString :=
  tokenizeLoop (c_str delimiters) ((c_str str).length + 1)
    (wcstok_s (c_str str) (c_str delimiters)) []

/-- The spec's words for `Tokenize`: the string split on every character present in
`delimiters`, with the empty tokens discarded. -/
def TokenizeSpec (str : WString) (delimiters : WString) : List WString :=
  (str.splitOnP (fun c => delimiters.contains c)).filter (fun token => !token.isEmpty)

end string

/-! ## End of the definitions -/

end common

namespace common.string

/-! ## Facts about Join -/

/-- Once `joined` is non-empty, every further part is preceded by the delimiter. -/
theorem foldl_joinStep_of_ne_nil (delimiter : WString) (parts : List WString)
    (joined : WString) (h : joined ≠ []) :
    parts.foldl (joinStep delimiter) joined
      = joined ++ (parts.map (fun part => delimiter ++ part)).flatten := by
  induction parts generalizing joined with
  | nil => simp
  | cons part rest ih =>
    have hne : joined ++ delimiter ++ part ≠ [] := by
      simp [h]
    have hstep : joinStep delimiter joined part = joined ++ delimiter ++ part := by
      cases joined with
      | nil => exact absurd rfl h
      | cons c cs => simp [joinStep]
    simp only [List.foldl_cons, hstep, List.map_cons, List.flatten_cons]
    rw [ih _ hne]
    simp [List.append_assoc]

/-- The spec's join of a non-empty head followed by further parts. -/
theorem JoinSpec_cons (delimiter : WString) (part : WString) (rest : List WString) :
    JoinSpec delimiter (part :: rest)
      = part ++ (rest.map (fun p => delimiter ++ p)).flatten := by
  induction rest generalizing part with
  | nil => simp [JoinSpec]
  | cons next rest ih =>
    simp only [JoinSpec, ih next, List.map_cons, List.flatten_cons]
    simp [List.append_assoc]

/-- Leading empty parts leave `joined` empty, so the fold skips them without a delimiter. -/
theorem foldl_joinStep_nil (delimiter : WString) (parts : List WString) :
    parts.foldl (joinStep delimiter) []
      = JoinSpec delimiter (parts.dropWhile (fun part => part.isEmpty)) := by
  induction parts with
  | nil => simp [JoinSpec]
  | cons part rest ih =>
    cases part with
    | nil => simpa [joinStep, List.dropWhile] using ih
    | cons c cs =>
      have hstep : joinStep delimiter [] (c :: cs) = c :: cs := by simp [joinStep]
      simp only [List.foldl_cons, hstep]
      rw [foldl_joinStep_of_ne_nil delimiter rest (c :: cs) (by simp)]
      simp [List.dropWhile, JoinSpec_cons]

/-- What `Join` computes on every input: the spec's join of the parts that remain after the
leading empty parts are dropped. -/
theorem Join_eq_JoinSpec_dropWhile (parts : List WString) (delimiter : WString) :
    Join parts delimiter
      = JoinSpec delimiter (parts.dropWhile (fun part => part.isEmpty)) := by
  match parts with
  | [] => simp [Join, JoinSpec]
  | [part] =>
    cases part with
    | nil => simp [Join, JoinSpec, List.dropWhile]
    | cons c cs => simp [Join, JoinSpec, List.dropWhile]
  | part :: next :: rest =>
    simpa [Join] using foldl_joinStep_nil delimiter (part :: next :: rest)

/-- C1 (the code at the failing input): `Join(["", "b"], "-")` is `"b"`, while the
delimiter-between-adjacent-parts reading of the claim gives `"-b"`; on `["a","b","c"]` the
two agree on `"a-b-c"`. -/
theorem Join_leading_empty_part :
    Join [[], ['b']] ['-'] = ['b']
      ∧ JoinSpec ['-'] [[], ['b']] = ['-', 'b']
      ∧ Join [['a'], ['b'], ['c']] ['-'] = ['a', '-', 'b', '-', 'c'] := by
  decide

end common.string

namespace common.string

/-! ## Facts about FormatFlags -/

/-- The loop of `FormatFlags` from any intermediate state: the labels of the definitions
whose mask meets `flags` are appended in list order, and their masks are cleared from
`remaining`. -/
theorem foldl_flagsStep (w : Nat) (flags : Nat) (definitions : List (Nat × WString))
    (st : List WString × Nat) :
    definitions.foldl (flagsStep w flags) st
      = (st.1 ++ (definitions.filter (matchesFlags flags)).map (fun d => d.2),
         ((definitions.filter (matchesFlags flags)).map (fun d => d.1)).foldl
           (fun remaining mask => remaining &&& bitNot w mask) st.2) := by
  induction definitions generalizing st with
  | nil => simp
  | cons d rest ih =>
    by_cases hd : flags &&& d.1 ≠ 0
    · have hm : matchesFlags flags d = true := by simp [matchesFlags, hd]
      simp [List.foldl_cons, ih, flagsStep, hd, hm, List.filter_cons]
    · have hm : matchesFlags flags d = false := by simp [matchesFlags, hd]
      simp [List.foldl_cons, ih, flagsStep, hd, hm, List.filter_cons]

/-- C2 (counterexample): with the definitions `[(1, "A"), (1, "B")]` and `flags = 1`, the
second label is pushed although bit 1 has already been cleared from the working copy by the
first definition. -/
theorem FormatFlags_rematches_consumed_bits :
    ¬ EmitsOnlyOnRemaining 8 [(1, ['A']), (1, ['B'])] 1 := by
  intro h
  exact h [(1, ['A'])] (1, ['B']) [] rfl (by decide) (by decide)

/-- C2 (amended): each matching definition's bits are cleared from the working copy, and
matching is tested against the original `flags`, not against the working copy: the labels
pushed are exactly those of the definitions whose mask meets `flags`, in list order, so a
later definition that overlaps bits already cleared matches again. -/
theorem flagsLoop_tests_original_flags (w : Nat) (definitions : List (Nat × WString))
    (flags : Nat) :
    (flagsLoop w flags definitions).1
        = (definitions.filter (fun d => decide (flags &&& d.1 ≠ 0))).map (fun d => d.2)
      ∧ (flagsLoop w flags definitions).2
        = ((definitions.filter (fun d => decide (flags &&& d.1 ≠ 0))).map
            (fun d => d.1)).foldl (fun remaining mask => remaining &&& bitNot w mask) flags
      ∧ FormatFlags 8 [(1, ['A']), (1, ['B'])] 1 = ['A', ',', ' ', 'B'] := by
  refine ⟨?_, ?_, by decide⟩
  · simp only [flagsLoop, foldl_flagsStep]
    rfl
  · simp only [flagsLoop, foldl_flagsStep]
    rfl

/-! ## Facts about Summary -/

/-- C3 (counterexample): `Summary("hi", 2)` returns `"hi"`, it does not fail. -/
theorem Summary_hi_2_returns :
    Summary ['h', 'i'] 2 = Except.ok ['h', 'i'] ∧ Summary [] 0 = Except.ok [] := by
  constructor <;> rfl

/-- C3 (amended): for `max < 3`, `Summary(str, max)` fails with "Requested summary is too
short" when `str` is longer than `max`, and returns `str` unchanged otherwise. -/
theorem Summary_short_budget (str : WString) (max : Nat) (hmax : max < 3) :
    (max < str.length → Summary str max = Except.error summaryTooShort)
      ∧ (str.length ≤ max → Summary str max = Except.ok str) := by
  constructor
  · intro hlen
    simp [Summary, Nat.not_le.mpr hlen, hmax]
  · intro hlen
    simp [Summary, hlen]

/-- Witness for `Summary_short_budget` at `Summary("hello", 2)`. -/
theorem Summary_short_budget_witness :
    (2 < 3) ∧ Summary ['h', 'e', 'l', 'l', 'o'] 2 = Except.error summaryTooShort :=
  ⟨by decide, (Summary_short_budget ['h', 'e', 'l', 'l', 'o'] 2 (by decide)).1 (by decide)⟩

/-- C7: a string no longer than `max` is returned unchanged; a longer one, when `max ≥ 3`,
becomes its first `max - 3` characters followed by `"..."`, of length exactly `max`; every
returned summary has length at most `max`. -/
theorem Summary_spec (str : WString) (max : Nat) :
    (str.length ≤ max → Summary str max = Except.ok str)
      ∧ (max < str.length → 3 ≤ max →
          Summary str max = Except.ok (str.take (max - 3) ++ ['.', '.', '.'])
            ∧ (str.take (max - 3) ++ ['.', '.', '.']).length = max)
      ∧ (∀ summary, Summary str max = Except.ok summary → summary.length ≤ max) := by
  refine ⟨?_, ?_, ?_⟩
  · intro hlen
    simp [Summary, hlen]
  · intro hlen hmax
    constructor
    · simp [Summary, Nat.not_le.mpr hlen, Nat.not_lt.mpr hmax]
    · simp only [List.length_append, List.length_take, List.length_cons, List.length_nil]
      omega
  · intro summary hsum
    unfold Summary at hsum
    split at hsum
    · rename_i hlen
      cases hsum
      exact hlen
    · split at hsum
      · cases hsum
      · rename_i hlen hmax
        cases hsum
        simp only [List.length_append, List.length_take, List.length_cons, List.length_nil]
        omega

/-- Witness for `Summary_spec`: `Summary("hello world", 8) = "hello..."` and
`Summary("hi", 8) = "hi"`. -/
theorem Summary_spec_witness :
    Summary "hello world".toList 8 = Except.ok "hello...".toList
      ∧ Summary "hi".toList 8 = Except.ok "hi".toList :=
  ⟨((Summary_spec "hello world".toList 8).2.1 (by decide) (by decide)).1,
   (Summary_spec "hi".toList 8).1 (by decide)⟩

end common.string

namespace common.error

/-! ## Facts about UnwindException -/

/-- The outcome of `UnwindException` is that of passing the messages of the chain to the
sink one after the other, where the first exception of the sink ends the run; when no call
throws, the run ends in `std::terminate` on a chain that ends in a null nested pointer and
in a normal return on any other chain. -/
theorem UnwindException_result {σ ε : Type} (sinkError : σ → NString → Except ε σ)
    (err : StdException) (logSink : σ) :
    (UnwindException sinkError err logSink).result
      = outcomeOfLogging (err.messages.foldlM sinkError logSink) err.endsInNull := by
  induction err generalizing logSink with
  | plain what =>
    simp only [UnwindException, StdException.messages, StdException.endsInNull,
      List.foldlM_cons, List.foldlM_nil]
    cases sinkError logSink what <;> rfl
  | nestedStd what inner ih =>
    simp only [UnwindException, StdException.messages, StdException.endsInNull,
      List.foldlM_cons]
    cases h : sinkError logSink what with
    | error thrown => rfl
    | ok logSink1 => exact ih logSink1
  | nestedOther what =>
    simp only [UnwindException, StdException.messages, StdException.endsInNull,
      List.foldlM_cons, List.foldlM_nil]
    cases sinkError logSink what <;> rfl
  | nestedNull what =>
    simp only [UnwindException, StdException.messages, StdException.endsInNull,
      List.foldlM_cons, List.foldlM_nil]
    cases sinkError logSink what <;> rfl

/-- With a sink that never throws, the calls of `UnwindException` are the messages of the
chain, and the run ends in `std::terminate` on a chain that ends in a null nested pointer
and in a normal return on any other chain. -/
theorem UnwindException_calls_of_total {σ ε : Type}
    (sinkError : σ → NString → Except ε σ)
    (hsink : ∀ logSink text, ∃ next, sinkError logSink text = Except.ok next)
    (err : StdException) (logSink : σ) :
    (UnwindException sinkError err logSink).calls = err.messages
      ∧ (err.endsInNull = false →
          ∃ final, (UnwindException sinkError err logSink).result = Outcome.returned final)
      ∧ (err.endsInNull = true →
          (UnwindException sinkError err logSink).result = Outcome.terminated) := by
  induction err generalizing logSink with
  | plain what =>
    obtain ⟨next, hnext⟩ := hsink logSink what
    simp [UnwindException, StdException.messages, StdException.endsInNull, hnext]
  | nestedStd what inner ih =>
    obtain ⟨next, hnext⟩ := hsink logSink what
    simp only [UnwindException, StdException.messages, StdException.endsInNull, hnext]
    exact ⟨by rw [(ih next).1], (ih next).2.1, (ih next).2.2⟩
  | nestedOther what =>
    obtain ⟨next, hnext⟩ := hsink logSink what
    simp [UnwindException, StdException.messages, StdException.endsInNull, hnext]
  | nestedNull what =>
    obtain ⟨next, hnext⟩ := hsink logSink what
    simp [UnwindException, StdException.messages, StdException.endsInNull, hnext]

/-- A chain made of standard exceptions has one message per element. -/
theorem messages_length_of_allStd (err : StdException) (hstd : err.allStd = true) :
    err.messages.length = err.chainLength := by
  induction err with
  | plain what => rfl
  | nestedStd what inner ih =>
    simp only [StdException.allStd] at hstd
    simp [StdException.messages, StdException.chainLength, ih hstd]
  | nestedOther what => simp [StdException.allStd] at hstd
  | nestedNull what => rfl

/-- C4 (counterexample): on the chain `"outer"` caused by `"inner"`, a sink that throws on
`"inner"` makes `UnwindException` end with that exception; so does a sink failure on the
only element of a chain of one. -/
theorem UnwindException_sink_failure_propagates :
    (UnwindException sinkFailingOnInner
        (.nestedStd ['o', 'u', 't', 'e', 'r'] (.plain ['i', 'n', 'n', 'e', 'r'])) ()).result
      = Outcome.thrown ()
    ∧ (UnwindException sinkFailingOnInner (.plain ['i', 'n', 'n', 'e', 'r']) ()).result
      = Outcome.thrown () := by
  constructor <;> rfl

/-- C4 (amended): `UnwindException` ends exactly as logging the messages of the chain one
after the other ends: the first exception raised by the sink, on the outermost element or
on a later one, leaves `UnwindException`. When every call of the sink returns, the run ends
in a normal return, except on a chain whose innermost standard exception carries a null
nested pointer, where it ends in `std::terminate`. A nested exception that is not a
standard exception is dropped without a call of the sink. -/
theorem UnwindException_propagates_first_sink_failure {σ ε : Type}
    (sinkError : σ → NString → Except ε σ) (err : StdException) (logSink : σ) :
    (∀ thrown, err.messages.foldlM sinkError logSink = Except.error thrown →
        (UnwindException sinkError err logSink).result = Outcome.thrown thrown)
      ∧ (∀ final, err.messages.foldlM sinkError logSink = Except.ok final →
          (err.endsInNull = false →
            (UnwindException sinkError err logSink).result = Outcome.returned final)
          ∧ (err.endsInNull = true →
            (UnwindException sinkError err logSink).result = Outcome.terminated))
      ∧ (∀ thrown, sinkError logSink err.what = Except.error thrown →
          (UnwindException sinkError err logSink).result = Outcome.thrown thrown)
      ∧ (∀ what, (UnwindException sinkError (.nestedOther what) logSink).calls = [what]) := by
  have hresult := UnwindException_result sinkError err logSink
  refine ⟨?_, ?_, ?_, ?_⟩
  · intro thrown hthrown
    rw [hresult, hthrown]
    rfl
  · intro final hfinal
    rw [hresult, hfinal]
    constructor
    · intro hnull
      simp [outcomeOfLogging, hnull]
    · intro hnull
      simp [outcomeOfLogging, hnull]
  · intro thrown hthrown
    cases err with
    | plain what =>
      simp only [StdException.what] at hthrown
      simp [UnwindException, hthrown]
    | nestedStd what inner =>
      simp only [StdException.what] at hthrown
      simp [UnwindException, hthrown]
    | nestedOther what =>
      simp only [StdException.what] at hthrown
      simp [UnwindException, hthrown]
    | nestedNull what =>
      simp only [StdException.what] at hthrown
      simp [UnwindException, hthrown]
  · intro what
    simp only [UnwindException]
    cases sinkError logSink what <;> rfl

/-- Witness for `UnwindException_propagates_first_sink_failure`: the sink throws on the
outermost message; and on `"a"` caused by `"inner"` it throws on the second message. -/
theorem UnwindException_propagates_first_sink_failure_witness :
    (UnwindException sinkFailingOnInner
        (.nestedStd ['i', 'n', 'n', 'e', 'r'] (.plain ['x'])) ()).result
      = Outcome.thrown ()
    ∧ (UnwindException sinkFailingOnInner
        (.nestedStd ['a'] (.plain ['i', 'n', 'n', 'e', 'r'])) ()).result
      = Outcome.thrown () :=
  ⟨(UnwindException_propagates_first_sink_failure sinkFailingOnInner
      (.nestedStd ['i', 'n', 'n', 'e', 'r'] (.plain ['x'])) ()).2.2.1 () rfl,
   (UnwindException_propagates_first_sink_failure sinkFailingOnInner
      (.nestedStd ['a'] (.plain ['i', 'n', 'n', 'e', 'r'])) ()).1 () rfl⟩

/-- C5 (counterexample): on an error without cause whose type is derived from
`std::nested_exception`, with a sink that never throws, `UnwindException` makes its one
call of the sink and then ends in `std::terminate`: it does not return. -/
theorem UnwindException_null_nested_terminates :
    (StdException.nestedNull ['x']).allStd = true
      ∧ (StdException.nestedNull ['x']).chainLength = 1
      ∧ (UnwindException recordingSink (.nestedNull ['x']) []).calls = [['x']]
      ∧ (UnwindException recordingSink (.nestedNull ['x']) []).result = Outcome.terminated
      ∧ ¬ ∃ final, (UnwindException recordingSink (.nestedNull ['x']) []).result
            = Outcome.returned final := by
  refine ⟨rfl, rfl, rfl, rfl, ?_⟩
  rintro ⟨final, hfinal⟩
  cases hfinal

/-- C5 (amended): on a chain of `N` standard exceptions and a sink that never throws,
`UnwindException` calls `logSink->error` exactly `N` times, with the messages of the chain
from the outermost error to the innermost cause; it then returns normally, except when the
innermost exception carries a null nested pointer, where it ends in `std::terminate` after
the `N` calls. On an error that is not derived from `std::nested_exception` it makes
exactly one call and returns. -/
theorem UnwindException_logs_chain {σ ε : Type} (sinkError : σ → NString → Except ε σ)
    (err : StdException) (logSink : σ)
    (hsink : ∀ state text, ∃ next, sinkError state text = Except.ok next)
    (hstd : err.allStd = true) :
    (UnwindException sinkError err logSink).calls = err.messages
      ∧ (UnwindException sinkError err logSink).calls.length = err.chainLength
      ∧ (err.endsInNull = false →
          ∃ final, (UnwindException sinkError err logSink).result = Outcome.returned final)
      ∧ (err.endsInNull = true →
          (UnwindException sinkError err logSink).result = Outcome.terminated)
      ∧ (∀ what, (UnwindException sinkError (.plain what) logSink).calls = [what]
          ∧ ∃ final, (UnwindException sinkError (.plain what) logSink).result
              = Outcome.returned final) := by
  have h := UnwindException_calls_of_total sinkError hsink err logSink
  refine ⟨h.1, ?_, h.2.1, h.2.2, ?_⟩
  · rw [h.1]
    exact messages_length_of_allStd err hstd
  · intro what
    have hplain := UnwindException_calls_of_total sinkError hsink (.plain what) logSink
    exact ⟨hplain.1, hplain.2.1 rfl⟩

/-- Witness for `UnwindException_logs_chain`: the chain `"a"` caused by `"b"` caused by
`"c"` and the recording sink. -/
theorem UnwindException_logs_chain_witness :
    (UnwindException recordingSink (.nestedStd ['a'] (.nestedStd ['b'] (.plain ['c'])))
        []).calls = [['a'], ['b'], ['c']]
      ∧ (UnwindException recordingSink (.nestedStd ['a'] (.nestedStd ['b'] (.plain ['c'])))
        []).result = Outcome.returned [['a'], ['b'], ['c']] :=
  ⟨(UnwindException_logs_chain recordingSink
      (.nestedStd ['a'] (.nestedStd ['b'] (.plain ['c']))) []
      (fun state text => ⟨state ++ [text], rfl⟩) rfl).1, rfl⟩

/-! ## Facts about Throw -/

/-- C6: `Throw` never returns normally: it throws an exception whose message is
`operation + ": " + FormatWindowsErrorPlain(code)` and whose cause is the exception in
flight at the call, unmodified, or no cause when none is in flight. -/
theorem Throw_always_throws (FormatMessageA : Nat → Option NString)
    (current_exception : Option Thrown) (operation : NString) (errorCode : Nat) :
    ∃ raised : StdException,
      Throw FormatMessageA current_exception operation errorCode = Except.error raised
        ∧ raised.what
            = operation ++ [':', ' '] ++ FormatWindowsErrorPlain FormatMessageA errorCode
        ∧ raised.cause = current_exception := by
  cases current_exception with
  | none => exact ⟨_, rfl, rfl, rfl⟩
  | some nested =>
    cases nested with
    | std e => exact ⟨_, rfl, rfl, rfl⟩
    | other => exact ⟨_, rfl, rfl, rfl⟩

end common.error

namespace common.string

/-! ## Facts about SplitKeyValuePairs -/

/-- The member `find` returns the position of the first occurrence exactly when the
character occurs. -/
theorem find_of_mem (str : WString) (ch : Char) (h : ch ∈ str) :
    find str ch = some (str.indexOf ch) := by
  simp [find, List.indexOf_lt_length.mpr h]

/-- The member `find` returns `npos` when the character does not occur. -/
theorem find_of_not_mem (str : WString) (ch : Char) (h : ch ∉ str) :
    find str ch = none := by
  have hlen : ¬ str.indexOf ch < str.length := fun hlt => h (List.indexOf_lt_length.mp hlt)
  simp [find, hlen]

/-- A string splits at the first occurrence of a character it contains. -/
theorem split_at_indexOf (str : WString) (ch : Char) (h : ch ∈ str) :
    str = str.take (str.indexOf ch) ++ ch :: str.drop (str.indexOf ch + 1)
      ∧ ch ∉ str.take (str.indexOf ch) := by
  induction str with
  | nil => simp at h
  | cons c rest ih =>
    by_cases hc : c = ch
    · subst hc
      simp
    · have hrest : ch ∈ rest := by
        rcases List.mem_cons.mp h with h1 | h1
        · exact absurd h1.symm hc
        · exact h1
      have hidx : (c :: rest).indexOf ch = rest.indexOf ch + 1 :=
        List.indexOf_cons_ne rest hc
      obtain ⟨h1, h2⟩ := ih hrest
      rw [hidx]
      refine ⟨?_, ?_⟩
      · simp only [List.take_succ_cons, List.drop_succ_cons, List.cons_append]
        exact congrArg (List.cons c) h1
      · simp only [List.take_succ_cons, List.mem_cons, not_or]
        exact ⟨fun heq => hc heq.symm, h2⟩

/-- Both branches of the loop body insert the entry `splitPair pair`. -/
theorem splitStep_eq (result : KeyValuePairs) (pair : WString) :
    splitStep result pair = mapInsert result (splitPair pair) := by
  unfold splitStep splitPair
  cases find pair '=' <;> rfl

/-- The function `SplitKeyValuePairs` inserts the entries of the strings in list order. -/
theorem foldl_splitStep (serializedPairs : List WString) (result : KeyValuePairs) :
    serializedPairs.foldl splitStep result
      = (serializedPairs.map splitPair).foldl mapInsert result := by
  induction serializedPairs generalizing result with
  | nil => rfl
  | cons pair rest ih => simp [List.foldl_cons, splitStep_eq, ih]

/-- An insertion either leaves the map as it is or adds the entry at a new key. -/
theorem mapInsert_cases (result : KeyValuePairs) (entry : WString × WString) :
    (entry.1 ∈ result.map Prod.fst ∧ mapInsert result entry = result)
      ∨ (entry.1 ∉ result.map Prod.fst ∧ mapInsert result entry = result ++ [entry]) := by
  by_cases h : entry.1 ∈ result.map Prod.fst
  · left
    refine ⟨h, ?_⟩
    obtain ⟨e, he, hk⟩ := List.mem_map.mp h
    have hany : result.any (fun e => e.1 == entry.1) = true :=
      List.any_eq_true.mpr ⟨e, he, by simp [hk]⟩
    simp [mapInsert, hany]
  · right
    refine ⟨h, ?_⟩
    have hany : ¬ result.any (fun e => e.1 == entry.1) = true := by
      intro hany
      obtain ⟨e, he, hk⟩ := List.any_eq_true.mp hany
      exact h (List.mem_map.mpr ⟨e, he, by simpa using hk⟩)
    simp [mapInsert, hany]

/-- Insertions never remove an entry. -/
theorem mem_foldl_mapInsert_of_mem (entries : List (WString × WString))
    (result : KeyValuePairs) (e : WString × WString) (h : e ∈ result) :
    e ∈ entries.foldl mapInsert result := by
  induction entries generalizing result with
  | nil => exact h
  | cons entry rest ih =>
    apply ih
    rcases mapInsert_cases result entry with ⟨_, heq⟩ | ⟨_, heq⟩
    · rw [heq]; exact h
    · rw [heq]; exact List.mem_append_left _ h

/-- Insertions keep the keys of the map pairwise distinct. -/
theorem nodup_keys_foldl_mapInsert (entries : List (WString × WString))
    (result : KeyValuePairs) (h : (result.map Prod.fst).Nodup) :
    ((entries.foldl mapInsert result).map Prod.fst).Nodup := by
  induction entries generalizing result with
  | nil => exact h
  | cons entry rest ih =>
    apply ih
    rcases mapInsert_cases result entry with ⟨_, heq⟩ | ⟨hnew, heq⟩
    · rw [heq]; exact h
    · rw [heq, List.map_append, List.map_cons, List.map_nil]
      exact List.Nodup.append h (List.nodup_singleton _)
        (List.disjoint_singleton.mpr hnew)

/-- Every entry of the map after the insertions was in the map before or is one of the
inserted entries. -/
theorem mem_of_mem_foldl_mapInsert (entries : List (WString × WString))
    (result : KeyValuePairs) (e : WString × WString)
    (h : e ∈ entries.foldl mapInsert result) : e ∈ result ∨ e ∈ entries := by
  induction entries generalizing result with
  | nil => exact Or.inl h
  | cons entry rest ih =>
    rcases ih (mapInsert result entry) h with h1 | h1
    · rcases mapInsert_cases result entry with ⟨_, heq⟩ | ⟨_, heq⟩
      · rw [heq] at h1; exact Or.inl h1
      · rw [heq] at h1
        rcases List.mem_append.mp h1 with h2 | h2
        · exact Or.inl h2
        · exact Or.inr (by simp at h2; simp [h2])
    · exact Or.inr (List.mem_cons_of_mem _ h1)

/-- The first entry with a given key, when the key is not yet in the map, is in the map
after the insertions. -/
theorem first_occurrence_mem_foldl_mapInsert (before after : List (WString × WString))
    (entry : WString × WString) (result : KeyValuePairs)
    (hresult : entry.1 ∉ result.map Prod.fst)
    (hbefore : entry.1 ∉ before.map Prod.fst) :
    entry ∈ (before ++ entry :: after).foldl mapInsert result := by
  induction before generalizing result with
  | nil =>
    simp only [List.nil_append, List.foldl_cons]
    apply mem_foldl_mapInsert_of_mem
    rcases mapInsert_cases result entry with ⟨hold, _⟩ | ⟨_, heq⟩
    · exact absurd hold hresult
    · rw [heq]; simp
  | cons b rest ih =>
    simp only [List.map_cons, List.mem_cons, not_or] at hbefore
    simp only [List.cons_append, List.foldl_cons]
    apply ih _ _ hbefore.2
    rcases mapInsert_cases result b with ⟨_, heq⟩ | ⟨_, heq⟩
    · rw [heq]; exact hresult
    · rw [heq]
      simp only [List.map_append, List.map_cons, List.map_nil, List.mem_append,
        List.mem_singleton, not_or]
      exact ⟨hresult, hbefore.1⟩

/-- The keys of the map after the insertions are the keys before and the inserted keys. -/
theorem mem_keys_foldl_mapInsert (entries : List (WString × WString))
    (result : KeyValuePairs) (key : WString) :
    key ∈ (entries.foldl mapInsert result).map Prod.fst
      ↔ key ∈ result.map Prod.fst ∨ key ∈ entries.map Prod.fst := by
  induction entries generalizing result with
  | nil => simp
  | cons entry rest ih =>
    rw [List.foldl_cons, ih]
    rcases mapInsert_cases result entry with ⟨hold, heq⟩ | ⟨_, heq⟩
    · rw [heq]
      simp only [List.map_cons, List.mem_cons]
      constructor
      · rintro (h | h)
        · exact Or.inl h
        · exact Or.inr (Or.inr h)
      · rintro (h | h | h)
        · exact Or.inl h
        · exact Or.inl (h ▸ hold)
        · exact Or.inr h
    · rw [heq]
      simp only [List.map_append, List.map_cons, List.map_nil, List.mem_append,
        List.mem_singleton, List.mem_cons]
      tauto

/-- With pairwise distinct keys, none of them in the map, every insertion adds its
entry. -/
theorem foldl_mapInsert_of_nodup (entries : List (WString × WString))
    (result : KeyValuePairs)
    (h : ((result ++ entries).map Prod.fst).Nodup) :
    entries.foldl mapInsert result = result ++ entries := by
  induction entries generalizing result with
  | nil => simp
  | cons entry rest ih =>
    have hnew : entry.1 ∉ result.map Prod.fst := by
      intro hmem
      rw [List.map_append, List.map_cons] at h
      have hdis := (List.nodup_append.mp h).2.2
      exact hdis hmem (List.mem_cons_self _ _)
    rcases mapInsert_cases result entry with ⟨hold, _⟩ | ⟨_, heq⟩
    · exact absurd hold hnew
    · rw [List.foldl_cons, heq, ih]
      · simp
      · simpa using h

/-- The function `SplitKeyValuePairs` as insertions of the entries built by `splitPair`. -/
theorem SplitKeyValuePairs_eq_foldl (serializedPairs : List WString) :
    SplitKeyValuePairs serializedPairs
      = (serializedPairs.map splitPair).foldl mapInsert [] :=
  foldl_splitStep serializedPairs []

/-- In a map with pairwise distinct keys, a key has one value. -/
theorem value_unique_of_nodup_keys (result : KeyValuePairs)
    (h : (result.map Prod.fst).Nodup) (key value1 value2 : WString)
    (h1 : (key, value1) ∈ result) (h2 : (key, value2) ∈ result) : value1 = value2 := by
  have heq := List.inj_on_of_nodup_map h h1 h2 rfl
  exact (Prod.mk.inj heq).2

/-- C9: the mapping built by `SplitKeyValuePairs` has exactly one entry per distinct key of
the input, and for each key it holds the value of the first string of the list with that
key: a later string with the same key changes nothing. -/
theorem SplitKeyValuePairs_keeps_first (serializedPairs : List WString) :
    ((SplitKeyValuePairs serializedPairs).map Prod.fst).Nodup
      ∧ (∀ key, key ∈ (SplitKeyValuePairs serializedPairs).map Prod.fst
            ↔ key ∈ (serializedPairs.map splitPair).map Prod.fst)
      ∧ (∀ before pair after, serializedPairs = before ++ pair :: after →
          (splitPair pair).1 ∉ (before.map splitPair).map Prod.fst →
          splitPair pair ∈ SplitKeyValuePairs serializedPairs
            ∧ ∀ value, ((splitPair pair).1, value) ∈ SplitKeyValuePairs serializedPairs →
                value = (splitPair pair).2) := by
  have hnodup : ((SplitKeyValuePairs serializedPairs).map Prod.fst).Nodup := by
    rw [SplitKeyValuePairs_eq_foldl]
    exact nodup_keys_foldl_mapInsert _ [] (by simp)
  refine ⟨hnodup, ?_, ?_⟩
  · intro key
    rw [SplitKeyValuePairs_eq_foldl, mem_keys_foldl_mapInsert]
    simp
  · intro before pair after hsplit hfirst
    have hmem : splitPair pair ∈ SplitKeyValuePairs serializedPairs := by
      rw [SplitKeyValuePairs_eq_foldl, hsplit, List.map_append, List.map_cons]
      exact first_occurrence_mem_foldl_mapInsert _ _ _ [] (by simp) hfirst
    refine ⟨hmem, ?_⟩
    intro value hvalue
    exact value_unique_of_nodup_keys _ hnodup _ _ _ hvalue hmem

/-- Witness for `SplitKeyValuePairs_keeps_first`: on `["a=1", "a=2"]` the key `"a"` keeps
the value `"1"`. -/
theorem SplitKeyValuePairs_keeps_first_witness :
    (['a'], ['1']) ∈ SplitKeyValuePairs [['a', '=', '1'], ['a', '=', '2']]
      ∧ SplitKeyValuePairs [['a', '=', '1'], ['a', '=', '2']] = [(['a'], ['1'])] :=
  ⟨((SplitKeyValuePairs_keeps_first [['a', '=', '1'], ['a', '=', '2']]).2.2
      [] ['a', '=', '1'] [['a', '=', '2']] rfl (by decide)).1, by decide⟩

/-- C10: when the keys of the strings are pairwise distinct, the mapping built by
`SplitKeyValuePairs` has exactly one entry per string: for a string with `'='`, the key is
the text before its first `'='` and the value is all the text after it; for a string
without `'='`, the key is the whole string and the value is empty. -/
theorem SplitKeyValuePairs_distinct_keys (serializedPairs : List WString)
    (hdistinct : ((serializedPairs.map splitPair).map Prod.fst).Nodup) :
    (∀ entry, entry ∈ SplitKeyValuePairs serializedPairs
          ↔ entry ∈ serializedPairs.map splitPair)
      ∧ (SplitKeyValuePairs serializedPairs).length = serializedPairs.length
      ∧ (∀ pair, ('=' ∈ pair →
              pair = (splitPair pair).1 ++ '=' :: (splitPair pair).2
                ∧ '=' ∉ (splitPair pair).1)
            ∧ ('=' ∉ pair → splitPair pair = (pair, []))) := by
  have heq : SplitKeyValuePairs serializedPairs = serializedPairs.map splitPair := by
    rw [SplitKeyValuePairs_eq_foldl, foldl_mapInsert_of_nodup _ [] (by simpa using hdistinct)]
    simp
  refine ⟨?_, ?_, ?_⟩
  · intro entry
    rw [heq]
  · rw [heq, List.length_map]
  · intro pair
    constructor
    · intro hmem
      have hsplit := split_at_indexOf pair '=' hmem
      simp only [splitPair, find_of_mem pair '=' hmem]
      exact hsplit
    · intro hmem
      simp only [splitPair, find_of_not_mem pair '=' hmem]

/-- Witness for `SplitKeyValuePairs_distinct_keys`: `["a=1", "b"]` gives the entries
`("a", "1")` and `("b", "")`. -/
theorem SplitKeyValuePairs_distinct_keys_witness :
    (['a'], ['1']) ∈ SplitKeyValuePairs [['a', '=', '1'], ['b']]
      ∧ (['b'], []) ∈ SplitKeyValuePairs [['a', '=', '1'], ['b']]
      ∧ (SplitKeyValuePairs [['a', '=', '1'], ['b']]).length = 2 :=
  ⟨((SplitKeyValuePairs_distinct_keys [['a', '=', '1'], ['b']] (by decide)).1 _).mpr
      (by decide),
   ((SplitKeyValuePairs_distinct_keys [['a', '=', '1'], ['b']] (by decide)).1 _).mpr
      (by decide),
   (SplitKeyValuePairs_distinct_keys [['a', '=', '1'], ['b']] (by decide)).2.1⟩

end common.string

namespace common.string

/-! ## Facts about Join on short sequences -/

/-- C17: `Join([], d)` is the empty string and `Join([x], d)` is `x`, with no delimiter
appended, for every delimiter `d` and every string `x`. -/
theorem Join_nil_and_singleton (delimiter : WString) (x : WString) :
    Join [] delimiter = [] ∧ Join [x] delimiter = x :=
  ⟨rfl, rfl⟩

/-! ## Facts about TrimRight -/

/-- The result of `find_last_not_of`: on `npos` every character is in `chars`; on an index
the string splits there into a part before, the character found, which is not in `chars`,
and a part after it made of characters of `chars`. -/
theorem find_last_not_of_split (str chars : List Char) :
    (find_last_not_of str chars = none ∧ ∀ c ∈ str, c ∈ chars)
      ∨ ∃ init last suffix, find_last_not_of str chars = some init.length
          ∧ str = init ++ last :: suffix ∧ last ∉ chars ∧ ∀ c ∈ suffix, c ∈ chars := by
  induction str with
  | nil => left; simp [find_last_not_of]
  | cons c rest ih =>
    rcases ih with ⟨hnone, hall⟩ | ⟨init, last, suffix, hsome, hsplit, hlast, hsuffix⟩
    · by_cases hc : c ∈ chars
      · left
        refine ⟨?_, ?_⟩
        · simp [find_last_not_of, hnone, hc]
        · intro x hx
          rcases List.mem_cons.mp hx with h | h
          · rw [h]; exact hc
          · exact hall x h
      · right
        refine ⟨[], c, rest, ?_, rfl, hc, hall⟩
        simp [find_last_not_of, hnone, hc]
    · right
      refine ⟨c :: init, last, suffix, ?_, ?_, hlast, hsuffix⟩
      · simp [find_last_not_of, hsome]
      · rw [hsplit]; rfl

/-- C12: `TrimRight(str)` is `str` without its longest suffix made of the characters
`'\r'`, `'\n'`, `'\t'` and space: `str` is `TrimRight(str)` followed by a suffix of trim
characters, and `TrimRight(str)` is empty or ends in a character that is not a trim
character; the text before the suffix is unchanged. -/
theorem TrimRight_spec (str : List Char) :
    (∃ suffix, str = TrimRight str ++ suffix ∧ (∀ c ∈ suffix, c ∈ TrimChars)
        ∧ (TrimRight str = []
            ∨ ∃ init last, TrimRight str = init ++ [last] ∧ last ∉ TrimChars))
      ∧ TrimRight ['a', 'b', 'c', ' ', '\t', '\r', '\n'] = ['a', 'b', 'c']
      ∧ TrimRight [] = []
      ∧ TrimRight [' ', ' ', ' '] = [] := by
  refine ⟨?_, by decide, by decide, by decide⟩
  rcases find_last_not_of_split str TrimChars with
    ⟨hnone, hall⟩ | ⟨init, last, suffix, hsome, hsplit, hlast, hsuffix⟩
  · refine ⟨str, ?_, hall, Or.inl ?_⟩ <;> simp [TrimRight, hnone]
  · have htrim : TrimRight str = init ++ [last] := by
      simp only [TrimRight, hsome]
      rw [hsplit]
      simp [List.take_append_eq_append_take]
    refine ⟨suffix, ?_, hsuffix, Or.inr ⟨init, last, htrim, hlast⟩⟩
    rw [htrim, hsplit]
    simp

/-! ## Facts about ToAnsi -/

/-- C18: `ToAnsi(s)` has the length of `s`; at every position, a character with a code above
255 becomes `'?'`, and any other character becomes the character with the same value, the
low eight bits of its code. -/
theorem ToAnsi_spec (str : WString) :
    (ToAnsi str).length = str.length
      ∧ ∀ (i : Nat) (c : Char), str[i]? = some c →
          (255 < c.toNat → (ToAnsi str)[i]? = some '?')
            ∧ (c.toNat ≤ 255 →
                ∃ out, (ToAnsi str)[i]? = some out ∧ out.toNat = c.toNat % 256
                  ∧ out.toNat = c.toNat) := by
  refine ⟨by simp [ToAnsi], ?_⟩
  intro i c hc
  have hget : (ToAnsi str)[i]? = some (toAnsiChar c) := by
    simp [ToAnsi, List.getElem?_map, hc]
  constructor
  · intro hbig
    simp [hget, toAnsiChar, hbig]
  · intro hsmall
    have hmod : c.toNat % 256 = c.toNat := Nat.mod_eq_of_lt (by omega)
    have hout : toAnsiChar c = c := by
      simp [toAnsiChar, Nat.not_lt.mpr hsmall, hmod, Char.ofNat_toNat]
    exact ⟨c, by rw [hget, hout], hmod.symm, rfl⟩

/-- Witness for `ToAnsi_spec`: in `"aλ"` the character `'a'` is kept and `'λ'` (code 955)
becomes `'?'`. -/
theorem ToAnsi_spec_witness :
    (ToAnsi ['a', 'λ'])[1]? = some '?' ∧ ToAnsi ['a', 'λ'] = ['a', '?'] :=
  ⟨((ToAnsi_spec ['a', 'λ']).2 1 'λ' rfl).1 (by decide), by decide⟩

end common.string

namespace common

/-! ## Facts about numerals -/

/-- The accumulator of `Nat.toDigitsCore` is only appended to. -/
theorem toDigitsCore_append (base fuel n : Nat) (ds : List Char) :
    Nat.toDigitsCore base fuel n ds = Nat.toDigitsCore base fuel n [] ++ ds := by
  induction fuel generalizing n ds with
  | zero => simp [Nat.toDigitsCore]
  | succ fuel ih =>
    simp only [Nat.toDigitsCore]
    split
    · simp
    · rw [ih (n / base) (Nat.digitChar (n % base) :: ds),
        ih (n / base) [Nat.digitChar (n % base)]]
      simp

/-- Any fuel above `n` gives the same digits. -/
theorem toDigitsCore_fuel (base : Nat) (hbase : 2 ≤ base) (n : Nat) :
    ∀ fuel1 fuel2, n < fuel1 → n < fuel2 →
      Nat.toDigitsCore base fuel1 n [] = Nat.toDigitsCore base fuel2 n [] := by
  induction n using Nat.strong_induction_on with
  | _ n ih =>
    intro fuel1 fuel2 h1 h2
    obtain ⟨f1, rfl⟩ : ∃ f, fuel1 = f + 1 := ⟨fuel1 - 1, by omega⟩
    obtain ⟨f2, rfl⟩ : ∃ f, fuel2 = f + 1 := ⟨fuel2 - 1, by omega⟩
    simp only [Nat.toDigitsCore]
    by_cases hq : n / base = 0
    · simp [hq]
    · have hpos : 0 < n := by
        rcases Nat.eq_zero_or_pos n with h | h
        · rw [h] at hq; simp at hq
        · exact h
      have hlt : n / base < n := Nat.div_lt_self hpos (by omega)
      simp only [hq, if_false]
      rw [toDigitsCore_append base f1, toDigitsCore_append base f2,
        ih (n / base) hlt f1 f2 (by omega) (by omega)]

/-- A value below the base is written as one digit. -/
theorem toDigits_of_lt (base n : Nat) (h : n < base) :
    Nat.toDigits base n = [Nat.digitChar n] := by
  simp [Nat.toDigits, Nat.toDigitsCore, Nat.div_eq_of_lt h, Nat.mod_eq_of_lt h]

/-- A value from the base on is written as the digits of its quotient followed by its last
digit. -/
theorem toDigits_of_ge (base n : Nat) (hbase : 2 ≤ base) (h : base ≤ n) :
    Nat.toDigits base n = Nat.toDigits base (n / base) ++ [Nat.digitChar (n % base)] := by
  have hq : n / base ≠ 0 := by
    have : 0 < n / base := Nat.div_pos h (by omega)
    omega
  have hlt : n / base < n := Nat.div_lt_self (by omega) (by omega)
  have hstep : Nat.toDigits base n
      = Nat.toDigitsCore base n (n / base) [Nat.digitChar (n % base)] := by
    simp [Nat.toDigits, Nat.toDigitsCore, hq]
  rw [hstep, toDigitsCore_append base n,
    toDigitsCore_fuel base hbase (n / base) n (n / base + 1) hlt (by omega)]
  rfl

/-- The digit character of a value below 16 has that value. -/
theorem digitValue_digitChar (m : Nat) (h : m < 16) :
    digitValue (Nat.digitChar m) = m := by
  interval_cases m <;> decide

/-- The value of a numeral extended by one digit. -/
theorem numeralValue_append_singleton (base : Nat) (text : List Char) (c : Char) :
    numeralValue base (text ++ [c]) = numeralValue base text * base + digitValue c := by
  simp [numeralValue, List.foldl_append]

/-- The digits that `Nat.toDigits` writes for a base from 2 to 16 are the numeral of the
value without leading zeros. -/
theorem toDigits_isNumeralOf (base : Nat) (hbase : 2 ≤ base) (hbase16 : base ≤ 16)
    (n : Nat) : IsNumeralOf base (Nat.toDigits base n) n := by
  induction n using Nat.strong_induction_on with
  | _ n ih =>
    by_cases hn : n < base
    · rw [toDigits_of_lt base n hn]
      have hval : digitValue (Nat.digitChar n) = n := digitValue_digitChar n (by omega)
      refine ⟨?_, by simp, ?_, ?_⟩
      · intro c hc
        rw [List.mem_singleton.mp hc, hval]
        exact hn
      · intro hhead
        simp only [List.head?_cons, Option.some.injEq] at hhead
        rw [hhead]
      · simp [numeralValue, hval]
    · have hge : base ≤ n := Nat.not_lt.mp hn
      have hlt : n / base < n := Nat.div_lt_self (by omega) (by omega)
      obtain ⟨hdigits, hne, hhead, hvalue⟩ := ih (n / base) hlt
      have hval : digitValue (Nat.digitChar (n % base)) = n % base :=
        digitValue_digitChar _ (by have := Nat.mod_lt n (show 0 < base by omega); omega)
      rw [toDigits_of_ge base n hbase hge]
      refine ⟨?_, by simp, ?_, ?_⟩
      · intro c hc
        rcases List.mem_append.mp hc with h | h
        · exact hdigits c h
        · rw [List.mem_singleton.mp h, hval]
          exact Nat.mod_lt n (by omega)
      · intro hzero
        exfalso
        have hhead2 : (Nat.toDigits base (n / base)).head? = some '0' := by
          cases hT : Nat.toDigits base (n / base) with
          | nil => exact absurd hT hne
          | cons c cs =>
            rw [hT] at hzero
            simpa using hzero
        have hT := hhead hhead2
        rw [hT] at hvalue
        have hq : 0 < n / base := Nat.div_pos hge (by omega)
        simp [numeralValue, digitValue, digitChars] at hvalue
        omega
      · rw [numeralValue_append_singleton, hvalue, hval]
        exact Nat.div_add_mod' n base

/-- A numeral determines its value. -/
theorem IsNumeralOf_inj (base : Nat) (text : List Char) (n m : Nat)
    (hn : IsNumeralOf base text n) (hm : IsNumeralOf base text m) : n = m := by
  rw [← hn.2.2.2, ← hm.2.2.2]

/-- A character whose digit value is 16 or more does not occur in a numeral of a base up to
16. -/
theorem not_mem_of_IsNumeralOf (base : Nat) (hbase16 : base ≤ 16) (text : List Char)
    (n : Nat) (h : IsNumeralOf base text n) (c : Char) (hc : 16 ≤ digitValue c) :
    c ∉ text := by
  intro hmem
  have := h.1 c hmem
  omega

end common

namespace common.string

/-! ## Facts about FormatIpv4 -/

/-- Masking eight bits at position `k` and shifting them down gives the byte at `k`. -/
theorem and_mask_shiftRight (ip k : Nat) :
    (ip &&& (255 * 2 ^ k)) >>> k = ip / 2 ^ k % 256 := by
  apply Nat.eq_of_testBit_eq
  intro j
  have h255 : (255 : Nat) = 2 ^ 8 - 1 := by decide
  have h256 : (256 : Nat) = 2 ^ 8 := by decide
  rw [Nat.testBit_shiftRight, Nat.testBit_and, Nat.mul_comm, Nat.testBit_mul_pow_two,
    h256, Nat.testBit_mod_two_pow, ← Nat.shiftRight_eq_div_pow, Nat.testBit_shiftRight,
    h255, Nat.testBit_two_pow_sub_one]
  have hle : k ≤ k + j := Nat.le_add_right k j
  simp [hle, Bool.and_comm]

/-- The four values that `FormatIpv4` writes are the four octets of the address. -/
theorem FormatIpv4_eq_octets (ip : Nat) :
    FormatIpv4 ip = decimalText (octet ip 3) ++ '.' :: (decimalText (octet ip 2)
      ++ '.' :: (decimalText (octet ip 1) ++ '.' :: decimalText (octet ip 0))) := by
  have h3 := and_mask_shiftRight ip 24
  have h2 := and_mask_shiftRight ip 16
  have h1 := and_mask_shiftRight ip 8
  have h0 := Nat.and_pow_two_sub_one_eq_mod ip 8
  norm_num at h3 h2 h1 h0
  simp only [FormatIpv4, octet]
  norm_num
  rw [h3, h2, h1, h0]

end common.string

namespace common.string

/-- The decimal text of a value is its numeral in base 10. -/
theorem decimalText_isNumeralOf (n : Nat) : IsNumeralOf 10 (decimalText n) n :=
  toDigits_isNumeralOf 10 (by decide) (by decide) n

/-- A decimal text contains no character that is not a digit. -/
theorem not_mem_decimalText (n : Nat) (c : Char) (hc : 16 ≤ digitValue c) :
    c ∉ decimalText n :=
  not_mem_of_IsNumeralOf 10 (by decide) _ n (decimalText_isNumeralOf n) c hc

/-- Two values with the same decimal text are equal. -/
theorem decimalText_inj (n m : Nat) (h : decimalText n = decimalText m) : n = m :=
  IsNumeralOf_inj 10 (decimalText n) n m (decimalText_isNumeralOf n)
    (h ▸ decimalText_isNumeralOf m)

/-- A text is cut in one way at the first occurrence of a separator. -/
theorem append_cons_inj_of_not_mem (sep : Char) (a1 a2 r1 r2 : List Char)
    (h1 : sep ∉ a1) (h2 : sep ∉ a2) (h : a1 ++ sep :: r1 = a2 ++ sep :: r2) :
    a1 = a2 ∧ r1 = r2 := by
  induction a1 generalizing a2 with
  | nil =>
    cases a2 with
    | nil => simpa using h
    | cons c cs =>
      simp only [List.nil_append, List.cons_append, List.cons.injEq] at h
      exact absurd (List.mem_cons.mpr (Or.inl h.1)) h2
  | cons x xs ih =>
    cases a2 with
    | nil =>
      simp only [List.nil_append, List.cons_append, List.cons.injEq] at h
      exact absurd (List.mem_cons.mpr (Or.inl h.1.symm)) h1
    | cons c cs =>
      simp only [List.cons_append, List.cons.injEq] at h
      have hx : sep ∉ xs := fun hm => h1 (List.mem_cons_of_mem _ hm)
      have hc : sep ∉ cs := fun hm => h2 (List.mem_cons_of_mem _ hm)
      obtain ⟨e1, e2⟩ := ih cs hx hc h.2
      exact ⟨by rw [h.1, e1], e2⟩

/-- C13: `FormatIpv4(ip)` is `"A.B.C.D"` where `A`, `B`, `C`, `D` are the bits 31..24,
23..16, 15..8 and 7..0 of `ip`, each a value from 0 to 255 written in decimal without
leading zeros, with exactly three dots; `FormatIpv4(0x01020304)` is `"1.2.3.4"`. -/
theorem FormatIpv4_dotted_decimal (ip : Nat) :
    FormatIpv4 ip = decimalText (octet ip 3) ++ ['.'] ++ decimalText (octet ip 2) ++ ['.']
        ++ decimalText (octet ip 1) ++ ['.'] ++ decimalText (octet ip 0)
      ∧ (∀ k, octet ip k < 256 ∧ IsNumeralOf 10 (decimalText (octet ip k)) (octet ip k))
      ∧ (FormatIpv4 ip).count '.' = 3
      ∧ FormatIpv4 0x01020304 = ['1', '.', '2', '.', '3', '.', '4'] := by
  have hdot : ∀ n, (decimalText n).count '.' = 0 := fun n =>
    List.count_eq_zero.mpr (not_mem_decimalText n '.' (by decide))
  refine ⟨?_, ?_, ?_, by decide⟩
  · rw [FormatIpv4_eq_octets]
    simp
  · intro k
    exact ⟨Nat.mod_lt _ (by decide), decimalText_isNumeralOf _⟩
  · rw [FormatIpv4_eq_octets]
    simp [List.count_append, List.count_cons, hdot]

/-- C14: `FormatIpv4(ip, p)` is `FormatIpv4(ip)` followed by `"/"` and `p` written as a
decimal number; `FormatIpv4(0x01020304, 24)` is `"1.2.3.4/24"`. -/
theorem FormatIpv4Routing_spec (ip : Nat) (routingPrefix : Nat) :
    FormatIpv4Routing ip routingPrefix
        = FormatIpv4 ip ++ ['/'] ++ decimalText routingPrefix
      ∧ IsNumeralOf 10 (decimalText routingPrefix) routingPrefix
      ∧ FormatIpv4Routing 0x01020304 24
        = ['1', '.', '2', '.', '3', '.', '4', '/', '2', '4'] :=
  ⟨rfl, decimalText_isNumeralOf routingPrefix, by decide⟩

/-- C20: `FormatIpv4` is injective on 32-bit values. -/
theorem FormatIpv4_injective (ip1 ip2 : Nat) (h1 : ip1 < 2 ^ 32) (h2 : ip2 < 2 ^ 32)
    (h : FormatIpv4 ip1 = FormatIpv4 ip2) : ip1 = ip2 := by
  rw [FormatIpv4_eq_octets, FormatIpv4_eq_octets] at h
  have hdot : ∀ n, '.' ∉ decimalText n := fun n => not_mem_decimalText n '.' (by decide)
  obtain ⟨e3, h⟩ := append_cons_inj_of_not_mem '.' _ _ _ _ (hdot _) (hdot _) h
  obtain ⟨e2, h⟩ := append_cons_inj_of_not_mem '.' _ _ _ _ (hdot _) (hdot _) h
  obtain ⟨e1, e0⟩ := append_cons_inj_of_not_mem '.' _ _ _ _ (hdot _) (hdot _) h
  have o3 := decimalText_inj _ _ e3
  have o2 := decimalText_inj _ _ e2
  have o1 := decimalText_inj _ _ e1
  have o0 := decimalText_inj _ _ e0
  simp only [octet] at o3 o2 o1 o0
  norm_num at o3 o2 o1 o0 h1 h2
  omega

/-- Witness for `FormatIpv4_injective`: the only 32-bit value written as `"1.2.3.4"` is
`0x01020304`. -/
theorem FormatIpv4_injective_witness :
    FormatIpv4 16909060 = ['1', '.', '2', '.', '3', '.', '4'] ∧ 16909060 = 0x01020304 :=
  ⟨by decide, FormatIpv4_injective 16909060 0x01020304 (by decide) (by decide) (by decide)⟩

end common.string

namespace common.string

/-! ## Facts about FormatIpv6 -/

/-- The hexadecimal text of a value is its numeral in base 16. -/
theorem hexText_isNumeralOf (n : Nat) : IsNumeralOf 16 (error.hexText n) n :=
  toDigits_isNumeralOf 16 (by decide) (by decide) n

/-- Every byte read from an array of bytes is below 256. -/
theorem getD_lt_of_bytes (ip : List Nat) (hbytes : ∀ b ∈ ip, b < 256) (j : Nat) :
    ip.getD j 0 < 256 := by
  by_cases hj : j < ip.length
  · rw [List.getD_eq_getElem _ _ hj]
    exact hbytes _ (List.getElem_mem hj)
  · rw [List.getD_eq_default _ _ (Nat.not_lt.mp hj)]
    decide

/-- A word read little-endian and then swapped is the big-endian word. -/
theorem ByteSwap_readWord (ip : List Nat) (hbytes : ∀ b ∈ ip, b < 256) (i : Nat) :
    memory.ByteSwap (readWord ip i) = bigEndianWord ip i := by
  have ha := getD_lt_of_bytes ip hbytes (2 * i)
  have hb := getD_lt_of_bytes ip hbytes (2 * i + 1)
  simp only [memory.ByteSwap, readWord, bigEndianWord]
  omega

/-- C15: for an array of 16 bytes, `FormatIpv6` is the eight big-endian words
`b[2i] * 256 + b[2i+1]`, each written in lowercase hexadecimal without leading zeros, with
`':'` between them: eight groups and seven colons, and a zero word is written `"0"`. -/
theorem FormatIpv6_groups (ip : List Nat) (hlen : ip.length = 16)
    (hbytes : ∀ b ∈ ip, b < 256) :
    FormatIpv6 ip
        = error.hexText (bigEndianWord ip 0) ++ [':']
          ++ error.hexText (bigEndianWord ip 1) ++ [':']
          ++ error.hexText (bigEndianWord ip 2) ++ [':']
          ++ error.hexText (bigEndianWord ip 3) ++ [':']
          ++ error.hexText (bigEndianWord ip 4) ++ [':']
          ++ error.hexText (bigEndianWord ip 5) ++ [':']
          ++ error.hexText (bigEndianWord ip 6) ++ [':']
          ++ error.hexText (bigEndianWord ip 7)
      ∧ (∀ i, i < 8 → 2 * i + 1 < ip.length ∧ bigEndianWord ip i < 65536
          ∧ IsNumeralOf 16 (error.hexText (bigEndianWord ip i)) (bigEndianWord ip i))
      ∧ (FormatIpv6 ip).count ':' = 7
      ∧ error.hexText 0 = ['0'] := by
  have hcolon : ∀ n, (error.hexText n).count ':' = 0 := fun n =>
    List.count_eq_zero.mpr
      (not_mem_of_IsNumeralOf 16 (by decide) _ n (hexText_isNumeralOf n) ':' (by decide))
  refine ⟨?_, ?_, ?_, by decide⟩
  · simp only [FormatIpv6, ByteSwap_readWord ip hbytes]
  · intro i hi
    have ha := getD_lt_of_bytes ip hbytes (2 * i)
    have hb := getD_lt_of_bytes ip hbytes (2 * i + 1)
    refine ⟨by omega, ?_, hexText_isNumeralOf _⟩
    simp only [bigEndianWord]
    omega
  · simp [FormatIpv6, List.count_append, List.count_cons, hcolon]

/-- Witness for `FormatIpv6_groups`: the bytes `00 01 00 02 ... 00 08` give
`"1:2:3:4:5:6:7:8"`, and the all-zero address gives eight groups `"0"`. -/
theorem FormatIpv6_groups_witness :
    (FormatIpv6 [0, 1, 0, 2, 0, 3, 0, 4, 0, 5, 0, 6, 0, 7, 0, 8]).count ':' = 7
      ∧ FormatIpv6 [0, 1, 0, 2, 0, 3, 0, 4, 0, 5, 0, 6, 0, 7, 0, 8]
        = "1:2:3:4:5:6:7:8".toList
      ∧ FormatIpv6 [0, 0, 0, 0, 0, 0, 0, 0, 0, 0, 0, 0, 0, 0, 0, 0]
        = "0:0:0:0:0:0:0:0".toList :=
  ⟨(FormatIpv6_groups [0, 1, 0, 2, 0, 3, 0, 4, 0, 5, 0, 6, 0, 7, 0, 8] (by decide)
      (by decide)).2.2.1, by decide, by decide⟩

end common.string

namespace common.error

/-! ## Facts about FormatWindowsError and FormatWindowsErrorPlain -/

/-- Leading zeros do not change the value of a numeral. -/
theorem numeralValue_replicate_zero (base k : Nat) (text : List Char) :
    numeralValue base (List.replicate k '0' ++ text) = numeralValue base text := by
  have hzero : ∀ k, (List.replicate k '0').foldl
      (fun acc c => acc * base + digitValue c) 0 = 0 := by
    intro k
    induction k with
    | zero => rfl
    | succ k ih =>
      rw [List.replicate_succ, List.foldl_cons]
      have hd : digitValue '0' = 0 := by decide
      have h0 : 0 * base + digitValue '0' = 0 := by rw [hd]; simp
      rw [h0]
      exact ih
  simp only [numeralValue, List.foldl_append, hzero]

/-- The hexadecimal text of a 32-bit value, padded by `setw(8)` and `setfill('0')`, is
eight hexadecimal digits of that value. -/
theorem setw_hexText (errorCode : Nat) (hcode : errorCode < 2 ^ 32) :
    (setw 8 '0' (hexText errorCode)).length = 8
      ∧ (∀ c ∈ setw 8 '0' (hexText errorCode), digitValue c < 16)
      ∧ numeralValue 16 (setw 8 '0' (hexText errorCode)) = errorCode := by
  have hlen : (hexText errorCode).length ≤ 8 :=
    Nat.toDigitsCore_length 16 (by decide) (errorCode + 1) errorCode 8
      (by norm_num at hcode ⊢; exact hcode) (by decide)
  obtain ⟨hdigits, _, _, hvalue⟩ := toDigits_isNumeralOf 16 (by decide) (by decide) errorCode
  refine ⟨?_, ?_, ?_⟩
  · simp only [setw, List.length_append, List.length_replicate]
    omega
  · intro c hc
    rcases List.mem_append.mp hc with h | h
    · rw [(List.mem_replicate.mp h).2]
      decide
    · exact hdigits c h
  · simp only [setw]
    rw [numeralValue_replicate_zero]
    exact hvalue

/-- The result of `TrimRight` does not end in a trim character. -/
theorem TrimRight_last_not_trim (str init : List Char) (last : Char)
    (h : common.string.TrimRight str = init ++ [last]) :
    last ∉ common.string.TrimChars := by
  rcases common.string.find_last_not_of_split str common.string.TrimChars with
    ⟨hnone, _⟩ | ⟨init2, last2, suffix, hsome, hsplit, hlast, _⟩
  · simp [common.string.TrimRight, hnone] at h
  · have htrim : common.string.TrimRight str = init2 ++ [last2] := by
      simp only [common.string.TrimRight, hsome]
      rw [hsplit]
      simp [List.take_append_eq_append_take]
    rw [htrim] at h
    have := List.append_inj' h rfl
    simp only [List.cons.injEq, and_true] at this
    rw [← this.2]
    exact hlast

/-- C16: for a 32-bit error code, when the message lookup fails both functions return
`"System error 0x"` followed by exactly eight hexadecimal digits, the code padded with
zeros on the left; when the lookup succeeds each returns `TrimRight` of the message, which
does not end in `'\r'`, `'\n'`, `'\t'` or space. -/
theorem FormatWindowsError_spec (FormatMessageW : Nat → Option WString)
    (FormatMessageA : Nat → Option NString) (errorCode : Nat)
    (hcode : errorCode < 2 ^ 32) :
    (FormatMessageW errorCode = none → FormatMessageA errorCode = none →
        FormatWindowsError FormatMessageW errorCode
            = FormatWindowsErrorPlain FormatMessageA errorCode
          ∧ ∃ digits, FormatWindowsErrorPlain FormatMessageA errorCode
                = "System error 0x".toList ++ digits
              ∧ digits.length = 8 ∧ (∀ c ∈ digits, digitValue c < 16)
              ∧ numeralValue 16 digits = errorCode)
      ∧ (∀ buffer, FormatMessageW errorCode = some buffer →
          FormatWindowsError FormatMessageW errorCode = common.string.TrimRight buffer
            ∧ ∀ init last, FormatWindowsError FormatMessageW errorCode = init ++ [last] →
                last ∉ common.string.TrimChars)
      ∧ (∀ buffer, FormatMessageA errorCode = some buffer →
          FormatWindowsErrorPlain FormatMessageA errorCode = common.string.TrimRight buffer
            ∧ ∀ init last,
                FormatWindowsErrorPlain FormatMessageA errorCode = init ++ [last] →
                last ∉ common.string.TrimChars) := by
  refine ⟨?_, ?_, ?_⟩
  · intro hW hA
    obtain ⟨hlen, hdigits, hvalue⟩ := setw_hexText errorCode hcode
    refine ⟨by simp [FormatWindowsError, FormatWindowsErrorPlain, hW, hA], ?_⟩
    exact ⟨setw 8 '0' (hexText errorCode), by simp [FormatWindowsErrorPlain, hA],
      hlen, hdigits, hvalue⟩
  · intro buffer hW
    have heq : FormatWindowsError FormatMessageW errorCode
        = common.string.TrimRight buffer := by simp [FormatWindowsError, hW]
    refine ⟨heq, ?_⟩
    intro init last hlast
    rw [heq] at hlast
    exact TrimRight_last_not_trim buffer init last hlast
  · intro buffer hA
    have heq : FormatWindowsErrorPlain FormatMessageA errorCode
        = common.string.TrimRight buffer := by simp [FormatWindowsErrorPlain, hA]
    refine ⟨heq, ?_⟩
    intro init last hlast
    rw [heq] at hlast
    exact TrimRight_last_not_trim buffer init last hlast

/-- Witness for `FormatWindowsError_spec`: with a lookup that fails, the code 31 gives
`"System error 0x0000001f"` in both functions. -/
theorem FormatWindowsError_spec_witness :
    FormatWindowsError (fun _ => none) 31 = FormatWindowsErrorPlain (fun _ => none) 31
      ∧ FormatWindowsErrorPlain (fun _ => none) 31 = "System error 0x0000001f".toList :=
  ⟨((FormatWindowsError_spec (fun _ => none) (fun _ => none) 31 (by decide)).1 rfl rfl).1,
   by decide⟩

end common.error

namespace common.string

/-! ## Facts about the marker of FormatFlags -/

/-- A bit of the working copy is set when it is set at the start and clear in every mask
that has been cleared from the copy. -/
theorem testBit_foldl_clear (w : Nat) (masks : List Nat) (start : Nat)
    (hstart : start < 2 ^ w) (i : Nat) :
    (masks.foldl (fun remaining mask => remaining &&& bitNot w mask) start).testBit i
      = (start.testBit i && masks.all (fun mask => !mask.testBit i)) := by
  induction masks generalizing start with
  | nil => simp
  | cons mask rest ih =>
    have hle : start &&& bitNot w mask < 2 ^ w :=
      Nat.lt_of_le_of_lt Nat.and_le_left hstart
    have hnot : (bitNot w mask).testBit i
        = (decide (i < w) && !(decide (i < w) && mask.testBit i)) := by
      have hlt : mask % 2 ^ w < 2 ^ w := Nat.mod_lt _ (Nat.two_pow_pos w)
      have hsub : bitNot w mask = 2 ^ w - (mask % 2 ^ w + 1) := by
        simp only [bitNot]
        omega
      rw [hsub, Nat.testBit_two_pow_sub_succ hlt, Nat.testBit_mod_two_pow]
    rw [List.foldl_cons, ih _ hle, Nat.testBit_and, hnot, List.all_cons]
    by_cases hbit : start.testBit i = true
    · have hi : i < w := by
        by_contra hge
        have hpow : 2 ^ w ≤ 2 ^ i := Nat.pow_le_pow_right (by decide) (Nat.not_lt.mp hge)
        have := Nat.testBit_lt_two_pow (Nat.lt_of_lt_of_le hstart hpow)
        rw [this] at hbit
        exact Bool.noConfusion hbit
      simp [hbit, hi]
    · simp [hbit]

/-- A bit of the union of the masks is set when it is set in some mask. -/
theorem testBit_foldl_or (definitions : List (Nat × WString)) (start : Nat) (i : Nat) :
    (definitions.foldl (fun union definition => union ||| definition.1) start).testBit i
      = (start.testBit i || definitions.any (fun d => d.1.testBit i)) := by
  induction definitions generalizing start with
  | nil => simp
  | cons d rest ih =>
    rw [List.foldl_cons, ih, Nat.testBit_or, List.any_cons, Bool.or_assoc]

/-- The working copy after the loop is non-zero exactly when `flags` has a set bit outside
the union of the masks of all definitions. -/
theorem flagsLoop_remaining_ne_zero_iff (w : Nat) (definitions : List (Nat × WString))
    (flags : Nat) (hflags : flags < 2 ^ w) :
    (flagsLoop w flags definitions).2 ≠ 0
      ↔ ∃ i, flags.testBit i = true ∧ (maskUnion definitions).testBit i = false := by
  have hbit : ∀ i, (flagsLoop w flags definitions).2.testBit i = true
      ↔ (flags.testBit i = true ∧ (maskUnion definitions).testBit i = false) := by
    intro i
    simp only [flagsLoop, foldl_flagsStep, testBit_foldl_clear w _ flags hflags i,
      maskUnion, testBit_foldl_or, Nat.zero_testBit, Bool.false_or, Bool.and_eq_true,
      List.all_eq_true, List.mem_map, List.mem_filter, List.any_eq_false]
    constructor
    · rintro ⟨hf, hall⟩
      refine ⟨hf, ?_⟩
      intro d hd hdbit
      by_cases hm : matchesFlags flags d = true
      · have := hall d.1 ⟨d, ⟨hd, hm⟩, rfl⟩
        simp [hdbit] at this
      · have hzero : flags &&& d.1 = 0 := by simpa [matchesFlags] using hm
        have hand := Nat.testBit_and flags d.1 i
        rw [hzero, Nat.zero_testBit, hf, hdbit] at hand
        exact Bool.noConfusion hand
    · rintro ⟨hf, hall⟩
      refine ⟨hf, ?_⟩
      rintro mask ⟨d, ⟨hd, _⟩, rfl⟩
      have := hall d hd
      simp [this]
  constructor
  · intro hne
    obtain ⟨i, hi⟩ := Nat.ne_zero_implies_bit_true hne
    exact ⟨i, (hbit i).mp hi⟩
  · rintro ⟨i, hi⟩ hzero
    have := (hbit i).mpr hi
    rw [hzero, Nat.zero_testBit] at this
    exact Bool.noConfusion this

/-- The spec's join of a sequence whose last part is `last` ends in `last`. -/
theorem JoinSpec_append_singleton (delimiter : WString) (parts : List WString)
    (last : WString) : ∃ front, JoinSpec delimiter (parts ++ [last]) = front ++ last := by
  cases parts with
  | nil => exact ⟨[], by simp [JoinSpec]⟩
  | cons part rest =>
    refine ⟨part ++ (rest.map (fun p => delimiter ++ p)).flatten ++ delimiter, ?_⟩
    rw [List.cons_append, JoinSpec_cons]
    simp [List.append_assoc]

/-- The function `Join` on a sequence whose last part is a non-empty `last` ends in
`last`. -/
theorem Join_append_singleton (delimiter : WString) (parts : List WString)
    (last : WString) (hlast : last ≠ []) :
    ∃ front, Join (parts ++ [last]) delimiter = front ++ last := by
  rw [Join_eq_JoinSpec_dropWhile]
  have hdrop : ∃ kept, (parts ++ [last]).dropWhile (fun part => part.isEmpty)
      = kept ++ [last] := by
    induction parts with
    | nil =>
      refine ⟨[], ?_⟩
      cases last with
      | nil => exact absurd rfl hlast
      | cons c cs => simp [List.dropWhile]
    | cons part rest ih =>
      cases part with
      | nil => simpa [List.dropWhile] using ih
      | cons c cs => exact ⟨(c :: cs) :: rest, by simp [List.dropWhile]⟩
  obtain ⟨kept, hkept⟩ := hdrop
  rw [hkept]
  exact JoinSpec_append_singleton delimiter kept last

end common.string

namespace common.string

/-! ## Facts about Tokenize -/

/-- A string without NUL is its own C string. -/
theorem c_str_of_not_mem (str : List Char) (h : '\x00' ∉ str) : c_str str = str := by
  unfold c_str
  rw [List.takeWhile_eq_self_iff]
  intro c hc
  have hne : c ≠ '\x00' := fun heq => h (heq ▸ hc)
  simpa using hne

/-- The first element that `dropWhile` keeps does not satisfy the predicate. -/
theorem head_dropWhile_false (q : Char → Bool) (str : List Char) (d : Char)
    (after : List Char) (h : str.dropWhile q = d :: after) : q d = false := by
  induction str with
  | nil => simp at h
  | cons x xs ih =>
    rw [List.dropWhile_cons] at h
    by_cases hx : q x = true
    · rw [if_pos hx] at h
      exact ih h
    · rw [if_neg hx] at h
      have hxd : x = d := (List.cons.inj h).1
      rw [← hxd]
      simpa using hx

/-- Leading separators contribute only empty pieces to a split. -/
theorem filter_splitOnP_dropWhile (p : Char → Bool) (str : List Char) :
    (str.splitOnP p).filter (fun token => !token.isEmpty)
      = ((str.dropWhile p).splitOnP p).filter (fun token => !token.isEmpty) := by
  induction str with
  | nil => rfl
  | cons c rest ih =>
    by_cases hc : p c = true
    · rw [List.dropWhile_cons, if_pos hc, ← ih, List.splitOnP_cons, if_pos hc]
      rfl
    · rw [List.dropWhile_cons, if_neg hc]

/-- On a string that starts with a non-separator, the first non-empty piece of the split is
the run up to the next separator, and the others are those of what follows that
separator. -/
theorem filter_splitOnP_run (p : Char → Bool) (c : Char) (rest : List Char)
    (hc : p c = false) :
    ((c :: rest).splitOnP p).filter (fun token => !token.isEmpty)
      = (c :: rest).takeWhile (fun x => !p x)
        :: ((((c :: rest).dropWhile (fun x => !p x)).tail).splitOnP p).filter
            (fun token => !token.isEmpty) := by
  have hsplit := List.takeWhile_append_dropWhile (fun x => !p x) (c :: rest)
  have htake : ∀ x ∈ (c :: rest).takeWhile (fun x => !p x), ¬ p x = true := by
    intro x hx
    have := List.mem_takeWhile_imp hx
    simpa using this
  have hhead : (c :: rest).takeWhile (fun x => !p x)
      = c :: rest.takeWhile (fun x => !p x) := by
    rw [List.takeWhile_cons]
    simp [hc]
  have hne : (!((c :: rest).takeWhile (fun x => !p x)).isEmpty) = true := by
    rw [hhead]; rfl
  cases hdrop : (c :: rest).dropWhile (fun x => !p x) with
  | nil =>
    rw [hdrop, List.append_nil] at hsplit
    have hall : ∀ x ∈ c :: rest, ¬ p x = true := by
      rw [← hsplit]; exact htake
    rw [List.splitOnP_eq_single p _ hall, hsplit]
    rfl
  | cons d after =>
    have hd : p d = true := by
      have hq := head_dropWhile_false (fun x => !p x) (c :: rest) d after hdrop
      simpa using hq
    have hstr : c :: rest = (c :: rest).takeWhile (fun x => !p x) ++ d :: after := by
      rw [← hdrop]; exact hsplit.symm
    conv_lhs => rw [hstr]
    rw [List.splitOnP_first p _ htake d hd after, List.filter_cons, if_pos hne]
    rfl

end common.string

namespace common.string

/-- What `dropWhile` keeps is not longer than the list. -/
theorem length_dropWhile_le (q : Char → Bool) (str : List Char) :
    (str.dropWhile q).length ≤ str.length := by
  induction str with
  | nil => simp
  | cons x xs ih =>
    rw [List.dropWhile_cons]
    split
    · exact Nat.le_succ_of_le ih
    · exact Nat.le_refl _

/-- One call of `wcstok_s`: null when the split has no token left, otherwise the first
token of the split, which is not empty and holds no delimiter, and a shorter context that
holds the other tokens. -/
theorem wcstok_s_cases (context delimiters : List Char) :
    (wcstok_s context delimiters = none ∧ TokenizeSpec context delimiters = [])
      ∨ ∃ token next, wcstok_s context delimiters = some (token, next)
          ∧ TokenizeSpec context delimiters = token :: TokenizeSpec next delimiters
          ∧ next.length < context.length ∧ token ≠ []
          ∧ ∀ x ∈ token, x ∉ delimiters := by
  have hskip : TokenizeSpec context delimiters
      = TokenizeSpec (context.dropWhile (fun c => delimiters.contains c)) delimiters :=
    filter_splitOnP_dropWhile (fun c => delimiters.contains c) context
  cases hdrop : context.dropWhile (fun c => delimiters.contains c) with
  | nil =>
    left
    refine ⟨by simp only [wcstok_s, hdrop], ?_⟩
    rw [hskip, hdrop]
    rfl
  | cons c rest =>
    right
    have hc : delimiters.contains c = false :=
      head_dropWhile_false (fun c => delimiters.contains c) context c rest hdrop
    refine ⟨(c :: rest).takeWhile (fun x => !delimiters.contains x),
      ((c :: rest).dropWhile (fun x => !delimiters.contains x)).tail, ?_, ?_, ?_, ?_, ?_⟩
    · simp only [wcstok_s, hdrop]
    · rw [hskip, hdrop]
      exact filter_splitOnP_run (fun c => delimiters.contains c) c rest hc
    · have h1 : (context.dropWhile (fun c => delimiters.contains c)).length
          ≤ context.length := length_dropWhile_le _ _
      have h2 : ((c :: rest).dropWhile (fun x => !delimiters.contains x)).length
          ≤ rest.length := by
        rw [List.dropWhile_cons]
        simp only [hc, Bool.not_false, if_true]
        exact length_dropWhile_le _ _
      rw [hdrop, List.length_cons] at h1
      rw [List.length_tail]
      omega
    · have hmem : c ∉ delimiters := by simpa using hc
      rw [List.takeWhile_cons]
      simp [hmem]
    · intro x hx
      have := List.mem_takeWhile_imp hx
      simpa using this

/-- With fuel above the length of the context, the loop of `Tokenize` appends the tokens of
the split of the context. -/
theorem tokenizeLoop_eq (delimiters : List Char) (fuel : Nat) (context : List Char)
    (tokens : List WString) (hfuel : context.length < fuel) :
    tokenizeLoop delimiters fuel (wcstok_s context delimiters) tokens
      = tokens ++ TokenizeSpec context delimiters := by
  induction fuel generalizing context tokens with
  | zero => exact absurd hfuel (Nat.not_lt_zero _)
  | succ fuel ih =>
    rcases wcstok_s_cases context delimiters with
      ⟨hnone, hspec⟩ | ⟨token, next, hsome, hspec, hlen, _, _⟩
    · rw [hnone, hspec]
      simp [tokenizeLoop]
    · rw [hsome, hspec]
      simp only [tokenizeLoop]
      rw [ih next (tokens ++ [token]) (by omega)]
      simp

/-- The function `Tokenize` returns the split of the C string of `str` on the characters
of the C string of `delimiters`, without the empty tokens. -/
theorem Tokenize_eq_TokenizeSpec_c_str (str delimiters : WString) :
    Tokenize str delimiters = TokenizeSpec (c_str str) (c_str delimiters) := by
  unfold Tokenize
  rw [tokenizeLoop_eq _ _ _ _ (Nat.lt_succ_self _)]
  rfl

/-- Every token of the split is non-empty and holds no delimiter. -/
theorem TokenizeSpec_tokens (delimiters : List Char) (n : Nat) :
    ∀ str : List Char, str.length ≤ n → ∀ token ∈ TokenizeSpec str delimiters,
      token ≠ [] ∧ ∀ x ∈ token, x ∉ delimiters := by
  induction n with
  | zero =>
    intro str hlen token htoken
    rcases wcstok_s_cases str delimiters with
      ⟨_, hspec⟩ | ⟨_, next, _, _, hnext, _, _⟩
    · rw [hspec] at htoken
      simp at htoken
    · omega
  | succ n ih =>
    intro str hlen token htoken
    rcases wcstok_s_cases str delimiters with
      ⟨_, hspec⟩ | ⟨first, next, _, hspec, hnext, hne, hclean⟩
    · rw [hspec] at htoken
      simp at htoken
    · rw [hspec] at htoken
      rcases List.mem_cons.mp htoken with h | h
      · rw [h]; exact ⟨hne, hclean⟩
      · exact ih next (by omega) token h

/-- C11 (counterexample): with the delimiters `"\0,"`, a string of two characters whose
first is NUL, `Tokenize("a,b", delimiters)` returns the single token `"a,b"`, which holds
the delimiter `','`: `wcstok_s` reads `delimiters.c_str()`, which ends at the NUL. -/
theorem Tokenize_nul_in_delimiters :
    '\x00' ∉ ['a', ',', 'b']
      ∧ Tokenize ['a', ',', 'b'] ['\x00', ','] = [['a', ',', 'b']]
      ∧ ',' ∈ ['\x00', ',']
      ∧ TokenizeSpec ['a', ',', 'b'] ['\x00', ','] = [['a'], ['b']] := by
  decide

/-- C11 (amended): for a string and delimiters without embedded NUL, `Tokenize` returns, in
order, the maximal runs of non-delimiter characters of the string: the string split on the
delimiters without the empty tokens; every token is non-empty and holds no delimiter; an
empty string gives no token. -/
theorem Tokenize_spec (str delimiters : WString) (hstr : '\x00' ∉ str)
    (hdelimiters : '\x00' ∉ delimiters) :
    Tokenize str delimiters = TokenizeSpec str delimiters
      ∧ (∀ token ∈ Tokenize str delimiters, token ≠ [] ∧ ∀ x ∈ token, x ∉ delimiters)
      ∧ Tokenize [] delimiters = [] := by
  have heq : Tokenize str delimiters = TokenizeSpec str delimiters := by
    rw [Tokenize_eq_TokenizeSpec_c_str, c_str_of_not_mem str hstr,
      c_str_of_not_mem delimiters hdelimiters]
  refine ⟨heq, ?_, ?_⟩
  · intro token htoken
    rw [heq] at htoken
    exact TokenizeSpec_tokens delimiters str.length str (Nat.le_refl _) token htoken
  · rw [Tokenize_eq_TokenizeSpec_c_str]
    rfl

/-- Witness for `Tokenize_spec`: `Tokenize("a,,b, c", ",")` is `["a", "b", " c"]`. -/
theorem Tokenize_spec_witness :
    Tokenize "a,,b, c".toList [','] = TokenizeSpec "a,,b, c".toList [',']
      ∧ Tokenize "a,,b, c".toList [','] = [['a'], ['b'], [' ', 'c']] :=
  ⟨(Tokenize_spec "a,,b, c".toList [','] (by decide) (by decide)).1, by decide⟩

end common.string

namespace common.string

/-! ## Facts about the output of FormatFlags -/

/-- On a value of the `w`-bit type, the statement `remaining &= ~mask` removes from
`remaining` the bits that it shares with `mask`. -/
theorem and_bitNot_eq_xor_and (w remaining mask : Nat) (h : remaining < 2 ^ w) :
    remaining &&& bitNot w mask = remaining ^^^ (remaining &&& mask) := by
  apply Nat.eq_of_testBit_eq
  intro i
  have hnot : (bitNot w mask).testBit i
      = (decide (i < w) && !(decide (i < w) && mask.testBit i)) := by
    have hlt : mask % 2 ^ w < 2 ^ w := Nat.mod_lt _ (Nat.two_pow_pos w)
    have hsub : bitNot w mask = 2 ^ w - (mask % 2 ^ w + 1) := by
      simp only [bitNot]
      omega
    rw [hsub, Nat.testBit_two_pow_sub_succ hlt, Nat.testBit_mod_two_pow]
  rw [Nat.testBit_and, hnot, Nat.testBit_xor, Nat.testBit_and]
  by_cases hbit : remaining.testBit i = true
  · have hi : i < w := by
      by_contra hge
      have hpow : 2 ^ w ≤ 2 ^ i := Nat.pow_le_pow_right (by decide) (Nat.not_lt.mp hge)
      have := Nat.testBit_lt_two_pow (Nat.lt_of_lt_of_le h hpow)
      rw [this] at hbit
      exact Bool.noConfusion hbit
    simp [hbit, hi]
  · simp [hbit]

/-- On a value of the `w`-bit type, clearing a list of masks with `&= ~mask` leaves the
bits that the spec's clearing leaves. -/
theorem foldl_and_bitNot_eq (w : Nat) (masks : List Nat) (start : Nat)
    (h : start < 2 ^ w) :
    masks.foldl (fun remaining mask => remaining &&& bitNot w mask) start
      = masks.foldl (fun remaining mask => remaining ^^^ (remaining &&& mask)) start := by
  induction masks generalizing start with
  | nil => rfl
  | cons mask rest ih =>
    have hle : start &&& bitNot w mask < 2 ^ w := Nat.lt_of_le_of_lt Nat.and_le_left h
    rw [List.foldl_cons, List.foldl_cons, ih _ hle, and_bitNot_eq_xor_and w start mask h]

/-- C8: for `flags` of the `w`-bit type, `FormatFlags` is `Join`, with the delimiter
`", "`, of the labels of the definitions whose mask shares a set bit with `flags`, in
definition-list order, followed by the marker `"[...]"` as the last entry exactly when bits
of `flags` remain after the masks of all matching definitions are cleared. As a text, that
is the entries from the first non-empty one on, with `", "` between adjacent entries. -/
theorem FormatFlags_eq_Join_labels (w : Nat) (definitions : List (Nat × WString))
    (flags : Nat) (hflags : flags < 2 ^ w) :
    FormatFlags w definitions flags
        = Join ((definitions.filter (fun d => decide (flags &&& d.1 ≠ 0))).map (fun d => d.2)
                ++ (if leftoverSpec definitions flags ≠ 0 then [['[', '.', '.', '.', ']']]
                    else []))
            [',', ' ']
      ∧ FormatFlags w definitions flags
        = JoinSpec [',', ' ']
            (((definitions.filter (fun d => decide (flags &&& d.1 ≠ 0))).map (fun d => d.2)
                ++ (if leftoverSpec definitions flags ≠ 0 then [['[', '.', '.', '.', ']']]
                    else [])).dropWhile (fun entry => entry.isEmpty)) := by
  have hjoin : FormatFlags w definitions flags
      = Join ((definitions.filter (fun d => decide (flags &&& d.1 ≠ 0))).map (fun d => d.2)
              ++ (if leftoverSpec definitions flags ≠ 0 then [['[', '.', '.', '.', ']']]
                  else []))
          [',', ' '] := by
    have hrem : (flagsLoop w flags definitions).2 = leftoverSpec definitions flags := by
      simp only [flagsLoop, foldl_flagsStep, leftoverSpec]
      exact foldl_and_bitNot_eq w _ flags hflags
    have hlabels : (flagsLoop w flags definitions).1
        = (definitions.filter (fun d => decide (flags &&& d.1 ≠ 0))).map (fun d => d.2) := by
      simp only [flagsLoop, foldl_flagsStep]
      rfl
    unfold FormatFlags flagsPresent
    simp only [hrem, hlabels, defaultDelimiter, unrepresentedMarker]
    by_cases h : leftoverSpec definitions flags ≠ 0
    · simp [h]
    · simp [h]
  exact ⟨hjoin, by rw [hjoin, Join_eq_JoinSpec_dropWhile]⟩

/-- Witness for `FormatFlags_eq_Join_labels` on 8-bit flags: `[(1, "A"), (2, "B")]` with
flags 5 gives `"A, [...]"`; `[(2, "B"), (1, "A")]` with flags 3 gives `"B, A"`, in list
order; `[(1, "A"), (2, "B")]` with flags 2 gives `"B"`; and `[(1, ""), (2, "B")]` with
flags 3 gives `"B"`, as `Join(["", "B"])` does. -/
theorem FormatFlags_eq_Join_labels_witness :
    FormatFlags 8 [(1, ['A']), (2, ['B'])] 5
        = Join [['A'], ['[', '.', '.', '.', ']']] [',', ' ']
      ∧ FormatFlags 8 [(1, ['A']), (2, ['B'])] 5
        = ['A', ',', ' ', '[', '.', '.', '.', ']']
      ∧ FormatFlags 8 [(2, ['B']), (1, ['A'])] 3 = ['B', ',', ' ', 'A']
      ∧ FormatFlags 8 [(1, ['A']), (2, ['B'])] 2 = ['B']
      ∧ FormatFlags 8 [(1, []), (2, ['B'])] 3 = ['B'] :=
  ⟨(FormatFlags_eq_Join_labels 8 [(1, ['A']), (2, ['B'])] 5 (by decide)).1,
   by decide, by decide, by decide, by decide⟩

end common.string

namespace common.string

/-! ## Facts about the text of FormatFlags -/

/-- The spec's join of a sequence with a last part is that part alone, or ends in the
delimiter followed by that part. -/
theorem JoinSpec_append_singleton_cases (delimiter : WString) (parts : List WString)
    (last : WString) :
    JoinSpec delimiter (parts ++ [last]) = last
      ∨ ∃ front, JoinSpec delimiter (parts ++ [last]) = front ++ delimiter ++ last := by
  cases parts with
  | nil => left; simp [JoinSpec]
  | cons part rest =>
    right
    refine ⟨part ++ (rest.map (fun p => delimiter ++ p)).flatten, ?_⟩
    rw [List.cons_append, JoinSpec_cons]
    simp [List.append_assoc]

/-- What `dropWhile` keeps are elements of the list. -/
theorem mem_of_mem_dropWhile (q : WString → Bool) (parts : List WString) (part : WString)
    (h : part ∈ parts.dropWhile q) : part ∈ parts :=
  (List.dropWhile_sublist q).subset h

/-- When no entry ends in `"[...]"`, the text that `Join` builds with the delimiter `", "`
does not end in `"[...]"`. -/
theorem Join_not_ends_in_marker (entries : List WString)
    (hentries : ∀ entry ∈ entries, ¬ ∃ front, entry = front ++ ['[', '.', '.', '.', ']']) :
    ¬ ∃ front, Join entries [',', ' '] = front ++ ['[', '.', '.', '.', ']'] := by
  rintro ⟨front, hfront⟩
  rw [Join_eq_JoinSpec_dropWhile] at hfront
  have hkept : ∀ entry ∈ entries.dropWhile (fun part => part.isEmpty),
      ¬ ∃ front, entry = front ++ ['[', '.', '.', '.', ']'] :=
    fun entry hmem => hentries entry (mem_of_mem_dropWhile _ entries entry hmem)
  rcases List.eq_nil_or_concat (entries.dropWhile (fun part => part.isEmpty)) with
    hnil | ⟨init, last, hconcat⟩
  · rw [hnil] at hfront
    simp [JoinSpec] at hfront
  · rw [List.concat_eq_append] at hconcat
    have hlast : ¬ ∃ front, last = front ++ ['[', '.', '.', '.', ']'] :=
      hkept last (by rw [hconcat]; simp)
    rw [hconcat] at hfront
    rcases JoinSpec_append_singleton_cases [',', ' '] init last with hone | ⟨f, hmany⟩
    · rw [hone] at hfront
      exact hlast ⟨front, hfront⟩
    · rw [hmany] at hfront
      rcases List.append_eq_append_iff.mp hfront with
        ⟨a, _, ha⟩ | ⟨c, hc, hmarker⟩
      · exact hlast ⟨a, ha⟩
      · rcases List.eq_nil_or_concat c with hcnil | ⟨c1, x, hcx⟩
        · rw [hcnil] at hmarker
          exact hlast ⟨[], by simpa using hmarker.symm⟩
        · rw [List.concat_eq_append] at hcx
          have hx : x = ' ' := by
            have hc2 : (f ++ [',']) ++ [' '] = (front ++ c1) ++ [x] := by
              rw [hcx] at hc
              simpa [List.append_assoc] using hc
            have := (List.append_inj' hc2 rfl).2
            simpa using this.symm
          have hmem : ' ' ∈ ['[', '.', '.', '.', ']'] := by
            rw [hmarker, hcx, hx]
            simp
          exact absurd hmem (by decide)

/-- C19 (counterexample): with the 8-bit definition `[(1, "[...]")]` and flags 1, the output
is the label `"[...]"`, so the output text ends in `"[...]"`, while flags has no set bit
outside the union of the masks. -/
theorem FormatFlags_label_ends_in_marker :
    FormatFlags 8 [(1, ['[', '.', '.', '.', ']'])] 1 = ['[', '.', '.', '.', ']']
      ∧ (∃ front, FormatFlags 8 [(1, ['[', '.', '.', '.', ']'])] 1
            = front ++ ['[', '.', '.', '.', ']'])
      ∧ maskUnion [(1, ['[', '.', '.', '.', ']'])] = 1
      ∧ ¬ ∃ i, Nat.testBit 1 i = true
            ∧ (maskUnion [(1, ['[', '.', '.', '.', ']'])]).testBit i = false := by
  refine ⟨by decide, ⟨[], by decide⟩, by decide, ?_⟩
  rintro ⟨i, h1, h2⟩
  have hunion : maskUnion [(1, ['[', '.', '.', '.', ']'])] = 1 := by decide
  rw [hunion, h1] at h2
  exact Bool.noConfusion h2

/-- C19 (amended): for `flags` of the `w`-bit type, `FormatFlags` appends the marker
`"[...]"` as the last entry exactly when `flags` has a set bit outside the union of the
masks of all definitions of the list, matching or not, and then the output text ends in
`"[...]"`; when no label of a matching definition ends in `"[...]"`, the output text ends
in `"[...]"` if and only if `flags` has such a bit. `FormatFlags(definitions, 0)` is the
empty string, and a definition with mask 0 contributes nothing to the output. -/
theorem FormatFlags_marker_iff_bit_outside_union (w : Nat)
    (definitions : List (Nat × WString)) (flags : Nat) (hflags : flags < 2 ^ w) :
    ((∃ i, flags.testBit i = true ∧ (maskUnion definitions).testBit i = false)
        ↔ flagsPresent w definitions flags
            = (definitions.filter (fun d => decide (flags &&& d.1 ≠ 0))).map (fun d => d.2)
                ++ [['[', '.', '.', '.', ']']])
      ∧ ((¬ ∃ i, flags.testBit i = true ∧ (maskUnion definitions).testBit i = false)
          ↔ flagsPresent w definitions flags
              = (definitions.filter (fun d => decide (flags &&& d.1 ≠ 0))).map
                  (fun d => d.2))
      ∧ ((∃ i, flags.testBit i = true ∧ (maskUnion definitions).testBit i = false) →
          ∃ front, FormatFlags w definitions flags = front ++ ['[', '.', '.', '.', ']'])
      ∧ ((∀ d ∈ definitions, flags &&& d.1 ≠ 0 →
            ¬ ∃ front, d.2 = front ++ ['[', '.', '.', '.', ']']) →
          ((∃ front, FormatFlags w definitions flags = front ++ ['[', '.', '.', '.', ']'])
            ↔ ∃ i, flags.testBit i = true ∧ (maskUnion definitions).testBit i = false))
      ∧ FormatFlags w definitions 0 = []
      ∧ (∀ before label after, definitions = before ++ (0, label) :: after →
          FormatFlags w definitions flags = FormatFlags w (before ++ after) flags) := by
  have hiff := flagsLoop_remaining_ne_zero_iff w definitions flags hflags
  have hlabels : (flagsLoop w flags definitions).1
      = (definitions.filter (fun d => decide (flags &&& d.1 ≠ 0))).map (fun d => d.2) := by
    simp only [flagsLoop, foldl_flagsStep]
    rfl
  have htext : (∃ i, flags.testBit i = true ∧ (maskUnion definitions).testBit i = false) →
      ∃ front, FormatFlags w definitions flags = front ++ ['[', '.', '.', '.', ']'] := by
    intro hbit
    have hrem := hiff.mpr hbit
    have hpresent : flagsPresent w definitions flags
        = (flagsLoop w flags definitions).1 ++ [unrepresentedMarker] := by
      unfold flagsPresent
      simp [hrem]
    unfold FormatFlags
    rw [hpresent]
    exact Join_append_singleton defaultDelimiter _ unrepresentedMarker (by decide)
  refine ⟨?_, ?_, htext, ?_, ?_, ?_⟩
  · rw [← hiff]
    unfold flagsPresent
    simp only [hlabels, unrepresentedMarker]
    by_cases hrem : (flagsLoop w flags definitions).2 ≠ 0
    · simp [hrem]
    · simp [hrem]
  · rw [← hiff]
    unfold flagsPresent
    simp only [hlabels, unrepresentedMarker]
    by_cases hrem : (flagsLoop w flags definitions).2 ≠ 0
    · simp [hrem]
    · simp [hrem]
  · intro hclean
    refine ⟨?_, htext⟩
    intro hends
    by_contra hnone
    have hrem : ¬ (flagsLoop w flags definitions).2 ≠ 0 := fun h => hnone (hiff.mp h)
    have hpresent : flagsPresent w definitions flags
        = (definitions.filter (fun d => decide (flags &&& d.1 ≠ 0))).map (fun d => d.2) := by
      unfold flagsPresent
      simp only [hlabels]
      simp [hrem]
    have hentries : ∀ entry ∈ (definitions.filter
        (fun d => decide (flags &&& d.1 ≠ 0))).map (fun d => d.2),
        ¬ ∃ front, entry = front ++ ['[', '.', '.', '.', ']'] := by
      intro entry hentry
      obtain ⟨d, hd, rfl⟩ := List.mem_map.mp hentry
      have hd2 := List.mem_filter.mp hd
      exact hclean d hd2.1 (by simpa using hd2.2)
    apply Join_not_ends_in_marker _ hentries
    have hout : FormatFlags w definitions flags
        = Join ((definitions.filter (fun d => decide (flags &&& d.1 ≠ 0))).map
            (fun d => d.2)) [',', ' '] := by
      unfold FormatFlags
      rw [hpresent]
      rfl
    rw [← hout]
    exact hends
  · have hnone : definitions.filter (matchesFlags 0) = [] := by
      apply List.filter_eq_nil_iff.mpr
      intro d _
      simp [matchesFlags]
    simp [FormatFlags, flagsPresent, flagsLoop, foldl_flagsStep, hnone, Join]
  · intro before label after hsplit
    have hmatch : matchesFlags flags (0, label) = false := by simp [matchesFlags]
    have hfilter : (before ++ (0, label) :: after).filter (matchesFlags flags)
        = (before ++ after).filter (matchesFlags flags) := by
      simp [List.filter_append, List.filter_cons, hmatch]
    simp only [FormatFlags, flagsPresent, flagsLoop, foldl_flagsStep, hsplit, hfilter]

/-- Witness for `FormatFlags_marker_iff_bit_outside_union`: with the 8-bit definitions
`[(1, "A"), (2, "B")]`, the flags 5 have bit 2 outside the union `3`, and the output is
`"A, [...]"`; with flags 3 no bit is outside and the output `"A, B"` does not end in the
marker. -/
theorem FormatFlags_marker_iff_bit_outside_union_witness :
    (∃ front, FormatFlags 8 [(1, ['A']), (2, ['B'])] 5
        = front ++ ['[', '.', '.', '.', ']'])
      ∧ FormatFlags 8 [(1, ['A']), (2, ['B'])] 5
        = ['A', ',', ' ', '[', '.', '.', '.', ']']
      ∧ FormatFlags 8 [(1, ['A']), (2, ['B'])] 3 = ['A', ',', ' ', 'B'] :=
  ⟨((FormatFlags_marker_iff_bit_outside_union 8 [(1, ['A']), (2, ['B'])] 5
      (by decide)).2.2.2.1 (by
        rintro d hd _ ⟨front, hfront⟩
        have hlen := congrArg List.length hfront
        simp only [List.mem_cons, List.mem_singleton, List.not_mem_nil, or_false] at hd
        rcases hd with rfl | rfl
        · simp at hlen
        · simp at hlen)).mpr ⟨2, by decide, by decide⟩, by decide, by decide⟩

end common.string
